import Mathlib

/-
Verification of the metadata-aggregation and catalog-consistency core of the
bagman recording catalog.

The development shallowly embeds, from the source:
  * src/bagman/utils/mcap_utils.py   — per-file channel statistics
    (get_mcap_info) and recording-level aggregation (get_rec_info);
  * src/bagman/utils/bagman_utils.py — metadata reconciliation
    (generate_metadata) and the ingest workflow (add_recording);
  * src/bagman/utils/db/tinydb_backend.py, mongodb_backend.py,
    elasticsearch_backend.py — the catalog-store operations;
  * src/bagman/bagman.py             — the CLI add/update orchestration
    (add_or_update_recording).

Python dictionaries are modelled as insertion-ordered association lists with
unique keys; file-system and network effects are passed in as explicit
arguments; raised exceptions are modelled by Option/None results; the process
clock is an explicit parameter.
-/

namespace Bagman

/-! ### Python string comparison -/

/-- Lexicographic comparison of character lists by code point, mirroring
Python string comparison (`s <= t`). -/
def charListLe : List Char → List Char → Bool
  | [], _ => true
  | _ :: _, [] => false
  | a :: as, b :: bs => if a = b then charListLe as bs else decide (a < b)

/-- Python `s <= t` on strings: lexicographic by code point. -/
def pyStrLe (s t : String) : Bool := charListLe s.data t.data

theorem charListLe_total : ∀ as bs : List Char, (charListLe as bs || charListLe bs as) = true
  | [], _ => by simp [charListLe]
  | _ :: _, [] => by simp [charListLe]
  | a :: as, b :: bs => by
    by_cases hab : a = b
    · subst hab
      simpa [charListLe] using charListLe_total as bs
    · rcases lt_or_gt_of_ne hab with h | h
      · simp [charListLe, hab, h]
      · simp [charListLe, hab, Ne.symm hab, h, not_lt_of_gt h]

theorem charListLe_trans :
    ∀ as bs cs : List Char,
      charListLe as bs = true → charListLe bs cs = true → charListLe as cs = true
  | [], _, _, _, _ => by simp [charListLe]
  | _ :: _, [], _, h1, _ => by simp [charListLe] at h1
  | _ :: _, _ :: _, [], _, h2 => by simp [charListLe] at h2
  | a :: as, b :: bs, c :: cs, h1, h2 => by
    by_cases hab : a = b
    · subst hab
      by_cases hac : a = c
      · subst hac
        simp only [charListLe, if_pos rfl] at h1 h2 ⊢
        exact charListLe_trans as bs cs h1 h2
      · simpa [charListLe, hac] using h2
    · by_cases hbc : b = c
      · subst hbc
        simpa [charListLe, hab] using h1
      · simp only [charListLe, if_neg hab, decide_eq_true_eq] at h1
        simp only [charListLe, if_neg hbc, decide_eq_true_eq] at h2
        have hac : a < c := lt_trans h1 h2
        simp [charListLe, ne_of_lt hac, hac]

theorem pyStrLe_total (s t : String) : (pyStrLe s t || pyStrLe t s) = true :=
  charListLe_total s.data t.data

theorem pyStrLe_trans {s t u : String} (h1 : pyStrLe s t = true) (h2 : pyStrLe t u = true) :
    pyStrLe s u = true :=
  charListLe_trans s.data t.data u.data h1 h2

theorem pyStrLe_refl (s : String) : pyStrLe s s = true := by
  have : ∀ as : List Char, charListLe as as = true := by
    intro as
    induction as with
    | nil => simp [charListLe]
    | cons a as ih => simp [charListLe, ih]
  exact this s.data

/-! ### Catalog field values

Values stored in catalog records.  `files` and `topics` entries of a
recording record are lists of fixed-shape sub-documents; they are modelled by
the structures `FileEntry` and `TopicEntry` (one constructor each in `Val`),
numbers by `ℚ`, YAML/JSON null by `Val.null`. -/

/-- One entry of a recording record's `files` list, as built by
`get_rec_info` (keys `path, start_time, end_time, duration, md5sum, size`). -/
structure FileEntry where
  path : String
  start_time : ℚ
  end_time : ℚ
  duration : ℚ
  md5sum : String
  size : ℕ
deriving DecidableEq

/-- One entry of a recording record's `topics` list, as built by
`get_rec_info` (keys `name, type, start_time, end_time, duration, count,
frequency`).  Fields that Python initialises to `None` are `Option`s. -/
structure TopicEntry where
  name : String
  type : Option String
  start_time : Option ℚ
  end_time : Option ℚ
  duration : Option ℚ
  count : ℕ
  frequency : Option ℚ
deriving DecidableEq

/-- A catalog field value. -/
inductive Val where
  | null
  | num (q : ℚ)
  | str (s : String)
  | vfiles (l : List FileEntry)
  | vtopics (l : List TopicEntry)
deriving DecidableEq

/-- Constructor rank, used only to totalise `pyLeB` on pairs Python cannot
compare. -/
def Val.rank : Val → ℕ
  | .null => 0
  | .num _ => 1
  | .str _ => 2
  | .vfiles _ => 3
  | .vtopics _ => 4

/-- Python `<=` on sort-key values: numeric order on numbers, lexicographic
order on strings.  On mixed-type pairs Python raises `TypeError`; this model
totalises those cases by constructor rank, and every theorem about sorting
carries a homogeneity hypothesis confining it to the faithful fragment. -/
def pyLeB : Val → Val → Bool
  | .num p, .num q => decide (p ≤ q)
  | .str s, .str t => pyStrLe s t
  | a, b => decide (a.rank ≤ b.rank)

theorem pyLeB_total (a b : Val) : (pyLeB a b || pyLeB b a) = true := by
  cases a <;> cases b <;>
    simp [pyLeB, Val.rank, le_total, pyStrLe_total, Nat.le_refl]

theorem pyLeB_refl (a : Val) : pyLeB a a = true := by
  cases a <;> simp [pyLeB, Val.rank, pyStrLe_refl]

theorem pyLeB_trans {a b c : Val} (h1 : pyLeB a b = true) (h2 : pyLeB b c = true) :
    pyLeB a c = true := by
  cases a <;> cases b <;> cases c <;>
    simp_all only [pyLeB, Val.rank, decide_eq_true_eq] <;>
    first
      | rfl
      | omega
      | exact le_trans h1 h2
      | exact pyStrLe_trans h1 h2

/-! ### Python dictionaries as insertion-ordered association lists

Python dicts keep insertion order; assigning to an existing key updates the
value in place, assigning to a fresh key appends.  All dictionaries built by
the embedded code have unique keys (Python guarantees this). -/

/-- `d[k]`, `d.get(k)`: value at the first occurrence of key `k`. -/
def alistGet {α : Type} (l : List (String × α)) (k : String) : Option α :=
  (l.find? (fun p => p.1 == k)).map (fun p => p.2)

/-- `k in d`. -/
def alistContains {α : Type} (l : List (String × α)) (k : String) : Bool :=
  l.any (fun p => p.1 == k)

/-- `d.get(k, v)`. -/
def alistGetD {α : Type} (l : List (String × α)) (k : String) (v : α) : α :=
  (alistGet l k).getD v

/-- `d[k] = v`: update in place when the key exists, else append. -/
def alistSet {α : Type} (l : List (String × α)) (k : String) (v : α) :
    List (String × α) :=
  if l.any (fun p => p.1 == k) then
    l.map (fun p => if p.1 == k then (k, v) else p)
  else l ++ [(k, v)]

/-- `d.update(e)`: assign each key/value pair of `e` into `d`, in order. -/
def alistUpdate {α : Type} (d e : List (String × α)) : List (String × α) :=
  e.foldl (fun acc p => alistSet acc p.1 p.2) d

/-- The keys of `d`, in order. -/
def alistKeys {α : Type} (l : List (String × α)) : List String :=
  l.map Prod.fst

theorem alistGet_nil {α : Type} (k : String) : alistGet ([] : List (String × α)) k = none :=
  rfl

theorem alistGet_cons_self {α : Type} {p : String × α} {l : List (String × α)} {k : String}
    (h : p.1 = k) : alistGet (p :: l) k = some p.2 := by
  rw [alistGet, List.find?_cons_of_pos _ (by simpa using h)]
  rfl

theorem alistGet_cons_ne {α : Type} {p : String × α} {l : List (String × α)} {k : String}
    (h : ¬ p.1 = k) : alistGet (p :: l) k = alistGet l k := by
  rw [alistGet, List.find?_cons_of_neg _ (by simpa using h), alistGet]

theorem alistContains_nil {α : Type} (k : String) :
    alistContains ([] : List (String × α)) k = false := rfl

theorem alistContains_cons {α : Type} (p : String × α) (l : List (String × α)) (k : String) :
    alistContains (p :: l) k = (p.1 == k || alistContains l k) := by
  rw [alistContains, List.any_cons, alistContains]

theorem alistContains_iff_get_isSome {α : Type} (l : List (String × α)) (k : String) :
    alistContains l k = true ↔ (alistGet l k).isSome = true := by
  induction l with
  | nil => simp [alistContains_nil, alistGet_nil]
  | cons p l ih =>
    rw [alistContains_cons]
    by_cases h : p.1 = k
    · simp [h, alistGet_cons_self h]
    · rw [alistGet_cons_ne h, show (p.1 == k) = false from by simpa using h, Bool.false_or]
      exact ih

theorem alistGet_eq_none_of_not_contains {α : Type} {l : List (String × α)} {k : String}
    (h : alistContains l k = false) : alistGet l k = none := by
  rcases ho : alistGet l k with _ | v
  · rfl
  · have := (alistContains_iff_get_isSome l k).mpr (by simp [ho])
    rw [h] at this
    cases this

theorem alistContains_of_get_eq_some {α : Type} {l : List (String × α)} {k : String} {v : α}
    (h : alistGet l k = some v) : alistContains l k = true :=
  (alistContains_iff_get_isSome l k).mpr (by simp [h])

theorem alistSet_of_contains {α : Type} {l : List (String × α)} {k : String} (v : α)
    (h : alistContains l k = true) :
    alistSet l k v = l.map (fun p => if p.1 == k then (k, v) else p) := by
  have h' : (l.any fun p => p.1 == k) = true := h
  rw [alistSet, if_pos h']

theorem alistSet_of_not_contains {α : Type} {l : List (String × α)} {k : String} (v : α)
    (h : alistContains l k = false) : alistSet l k v = l ++ [(k, v)] := by
  have h' : (l.any fun p => p.1 == k) = false := h
  rw [alistSet, if_neg (by simp [h'])]

theorem alistGet_map_replace_self {α : Type} (k : String) (v : α) :
    ∀ l : List (String × α), alistContains l k = true →
      alistGet (l.map (fun p => if p.1 == k then (k, v) else p)) k = some v := by
  intro l hl
  induction l with
  | nil => cases hl
  | cons p l ih =>
    rw [alistContains_cons] at hl
    by_cases hp : p.1 = k
    · rw [List.map_cons, if_pos (by simpa using hp)]
      exact alistGet_cons_self rfl
    · rw [List.map_cons, if_neg (by simpa using hp)]
      rw [alistGet_cons_ne hp]
      exact ih (by simpa [hp] using hl)

theorem alistGet_map_replace_ne {α : Type} (k k' : String) (v : α) (h : k' ≠ k) :
    ∀ l : List (String × α),
      alistGet (l.map (fun p => if p.1 == k then (k, v) else p)) k' = alistGet l k' := by
  intro l
  induction l with
  | nil => rfl
  | cons p l ih =>
    by_cases hp : p.1 = k
    · rw [List.map_cons, if_pos (by simpa using hp)]
      rw [alistGet_cons_ne (by simpa using (Ne.symm h)), alistGet_cons_ne (hp ▸ (Ne.symm h))]
      exact ih
    · rw [List.map_cons, if_neg (by simpa using hp)]
      by_cases hp' : p.1 = k'
      · rw [alistGet_cons_self hp', alistGet_cons_self hp']
      · rw [alistGet_cons_ne hp', alistGet_cons_ne hp']
        exact ih

theorem alistGet_append_right {α : Type} {l : List (String × α)} {k : String}
    (h : alistContains l k = false) (m : List (String × α)) :
    alistGet (l ++ m) k = alistGet m k := by
  induction l with
  | nil => rfl
  | cons p l ih =>
    rw [alistContains_cons] at h
    have hp : ¬ p.1 = k := by
      intro hk
      simp [hk] at h
    rw [List.cons_append, alistGet_cons_ne hp]
    exact ih (by simpa [hp] using h)

theorem alistGet_set_self {α : Type} (l : List (String × α)) (k : String) (v : α) :
    alistGet (alistSet l k v) k = some v := by
  rcases hc : alistContains l k with _ | _
  · rw [alistSet_of_not_contains v hc, alistGet_append_right hc]
    exact alistGet_cons_self rfl
  · rw [alistSet_of_contains v hc]
    exact alistGet_map_replace_self k v l hc

theorem alistGet_set_ne {α : Type} (l : List (String × α)) (k k' : String) (v : α)
    (h : k' ≠ k) : alistGet (alistSet l k v) k' = alistGet l k' := by
  rcases hc : alistContains l k with _ | _
  · rw [alistSet_of_not_contains v hc]
    induction l with
    | nil =>
      rw [List.nil_append, alistGet_cons_ne (by simpa using Ne.symm h)]
    | cons p l ih =>
      rw [alistContains_cons] at hc
      by_cases hp' : p.1 = k'
      · rw [List.cons_append, alistGet_cons_self hp', alistGet_cons_self hp']
      · rw [List.cons_append, alistGet_cons_ne hp', alistGet_cons_ne hp']
        exact ih (by
          rcases h1 : alistContains l k with _ | _
          · rfl
          · simp [h1] at hc)
  · rw [alistSet_of_contains v hc]
    exact alistGet_map_replace_ne k k' v h l

theorem alistContains_set {α : Type} (l : List (String × α)) (k k' : String) (v : α) :
    alistContains (alistSet l k v) k' = (alistContains l k' || k' == k) := by
  by_cases h : k' = k
  · subst h
    simp only [beq_self_eq_true, Bool.or_true]
    exact (alistContains_iff_get_isSome _ _).mpr (by simp [alistGet_set_self])
  · have hg := alistGet_set_ne l k k' v h
    have h1 := alistContains_iff_get_isSome (alistSet l k v) k'
    have h2 := alistContains_iff_get_isSome l k'
    rw [show (k' == k) = false from by simpa using h, Bool.or_false]
    rw [Bool.eq_iff_iff, h1, h2, hg]

theorem alistSet_mem {α : Type} {l : List (String × α)} {k : String} {v : α} {p : String × α}
    (h : p ∈ alistSet l k v) : p ∈ l ∨ p = (k, v) := by
  rcases hc : alistContains l k with _ | _
  · rw [alistSet_of_not_contains v hc] at h
    rcases List.mem_append.mp h with h | h
    · exact Or.inl h
    · exact Or.inr (by simpa using h)
  · rw [alistSet_of_contains v hc] at h
    rcases List.mem_map.mp h with ⟨q, hq, hqe⟩
    by_cases hqk : q.1 = k
    · right
      rw [if_pos (by simpa using hqk)] at hqe
      exact hqe.symm
    · left
      rw [if_neg (by simpa using hqk)] at hqe
      exact hqe ▸ hq

/-- Last assigned value for key `k` among the pairs of `e` (`none` if absent). -/
def updGet {α : Type} (e : List (String × α)) (k : String) : Option α :=
  e.foldl (fun acc p => if p.1 == k then some p.2 else acc) none

theorem updGet_init {α : Type} (e : List (String × α)) (k : String) :
    ∀ i : Option α,
      e.foldl (fun acc p => if p.1 == k then some p.2 else acc) i
        = (updGet e k).or i := by
  induction e with
  | nil =>
    intro i
    simp [updGet, Option.or]
  | cons p e ih =>
    intro i
    rw [List.foldl_cons, ih, show updGet (p :: e) k
        = (updGet e k).or (if p.1 == k then some p.2 else none) from by
      rw [updGet, List.foldl_cons, ih], Option.or_assoc]
    congr 1
    by_cases hp : p.1 = k
    · rw [if_pos (by simpa using hp), if_pos (by simpa using hp)]
      rfl
    · rw [if_neg (by simpa using hp), if_neg (by simpa using hp)]
      rfl

theorem updGet_cons {α : Type} (p : String × α) (e : List (String × α)) (k : String) :
    updGet (p :: e) k = (updGet e k).or (if p.1 == k then some p.2 else none) := by
  rw [updGet, List.foldl_cons, updGet_init e k]

theorem alistUpdate_nil {α : Type} (d : List (String × α)) : alistUpdate d [] = d := rfl

theorem alistUpdate_cons {α : Type} (d : List (String × α)) (p : String × α)
    (e : List (String × α)) :
    alistUpdate d (p :: e) = alistUpdate (alistSet d p.1 p.2) e := rfl

theorem alistUpdate_get {α : Type} (d e : List (String × α)) (k : String) :
    alistGet (alistUpdate d e) k = (updGet e k).or (alistGet d k) := by
  induction e generalizing d with
  | nil => rw [alistUpdate_nil, updGet, List.foldl_nil, Option.or]
  | cons p e ih =>
    rw [alistUpdate_cons, ih, updGet_cons]
    by_cases hp : p.1 = k
    · rw [if_pos (by simpa using hp)]
      have : alistGet (alistSet d p.1 p.2) k = some p.2 := hp ▸ alistGet_set_self d p.1 p.2
      rw [this]
      rcases h : updGet e k with _ | w <;> simp [Option.or]
    · rw [if_neg (by simpa using hp)]
      rw [alistGet_set_ne d p.1 k p.2 (fun hh => hp hh.symm)]
      rcases h : updGet e k with _ | w <;> simp [Option.or]

theorem updGet_eq_none_of_not_contains {α : Type} {e : List (String × α)} {k : String}
    (h : alistContains e k = false) : updGet e k = none := by
  induction e with
  | nil => rfl
  | cons p e ih =>
    rw [alistContains_cons] at h
    have hp : ¬ p.1 = k := by
      intro hk
      simp [hk] at h
    rw [updGet_cons, if_neg (by simpa using hp), ih (by simpa [hp] using h)]
    rfl

theorem alistUpdate_get_of_not_contains {α : Type} {d e : List (String × α)} {k : String}
    (h : alistContains e k = false) :
    alistGet (alistUpdate d e) k = alistGet d k := by
  rw [alistUpdate_get, updGet_eq_none_of_not_contains h, Option.or]

theorem not_contains_of_keys_nodup {α : Type} {p : String × α} {e : List (String × α)}
    (h : (alistKeys (p :: e)).Nodup) (hk : p.1 = k) : alistContains e k = false := by
  rw [alistKeys, List.map_cons, List.nodup_cons] at h
  rcases hc : alistContains e k with _ | _
  · rfl
  · exfalso
    have hex : ∃ q ∈ e, (fun p : String × α => p.1 == k) q = true := List.any_eq_true.mp hc
    rcases hex with ⟨q, hq, hqe⟩
    exact h.1 (by
      have hql : q.1 = k := by simpa using hqe
      rw [hk, ← hql]
      exact List.mem_map_of_mem Prod.fst hq)

theorem updGet_eq_get_of_nodup {α : Type} {e : List (String × α)} (k : String)
    (h : (alistKeys e).Nodup) : updGet e k = alistGet e k := by
  induction e with
  | nil => rfl
  | cons p e ih =>
    rw [updGet_cons]
    by_cases hp : p.1 = k
    · rw [updGet_eq_none_of_not_contains (not_contains_of_keys_nodup h hp)]
      rw [if_pos (by simpa using hp), alistGet_cons_self hp]
      rfl
    · rw [if_neg (by simpa using hp), alistGet_cons_ne hp]
      rw [ih (by
        rw [alistKeys, List.map_cons, List.nodup_cons] at h
        exact h.2)]
      rcases hv : alistGet e k with _ | w <;> simp [Option.or]

theorem alistUpdate_get_of_contains_nodup {α : Type} {d e : List (String × α)} {k : String}
    (hn : (alistKeys e).Nodup) (h : alistContains e k = true) :
    alistGet (alistUpdate d e) k = alistGet e k := by
  rw [alistUpdate_get, updGet_eq_get_of_nodup k hn]
  rcases hv : alistGet e k with _ | w
  · exact absurd ((alistContains_iff_get_isSome e k).mp h) (by simp [hv])
  · simp [Option.or]

theorem alistContains_update {α : Type} (d e : List (String × α)) (k : String) :
    alistContains (alistUpdate d e) k = (alistContains d k || alistContains e k) := by
  induction e generalizing d with
  | nil => rw [alistUpdate_nil, alistContains_nil, Bool.or_false]
  | cons p e ih =>
    rw [alistUpdate_cons, ih, alistContains_cons, alistContains_set]
    rw [show (k == p.1) = (p.1 == k) from by
      by_cases hh : k = p.1
      · rw [hh]
      · rw [show (k == p.1) = false from by simpa using hh,
            show (p.1 == k) = false from by simpa using Ne.symm hh]]
    cases alistContains d k <;> cases (p.1 == k) <;> cases alistContains e k <;> rfl

/-! ### Per-file channel statistics (mcap_utils.get_mcap_info)

A message, as yielded by the log reader adapter: channel topic, schema name,
and an optional log time in nanoseconds. -/

structure Msg where
  topic : String
  schemaName : String
  log_time : Option ℤ
deriving DecidableEq

/-- `message.log_time / 1e9 if message.log_time is not None else 0`. -/
def msgTimestamp (m : Msg) : ℚ :=
  match m.log_time with
  | some t => (t : ℚ) / 1000000000
  | none => 0

/-- Accumulated per-channel facts inside `get_mcap_info`'s loop; fields that
Python initialises to `None` are `Option`s. -/
structure ChanInfo where
  num_messages : ℕ
  message_type : Option String
  start_time : Option ℚ
  end_time : Option ℚ
  frequency : Option ℚ
deriving DecidableEq

/-- The defaultdict template in `get_mcap_info`. -/
def emptyChan : ChanInfo :=
  { num_messages := 0, message_type := none, start_time := none, end_time := none,
    frequency := none }

/-- One iteration of `get_mcap_info`'s message loop. -/
def chanStep (ci : List (String × ChanInfo)) (m : Msg) : List (String × ChanInfo) :=
  let info := alistGetD ci m.topic emptyChan
  let ts := msgTimestamp m
  let info' : ChanInfo :=
    { num_messages := info.num_messages + 1
      message_type := some m.schemaName
      start_time :=
        match info.start_time with
        | none => some ts
        | some s => if ts < s then some ts else some s
      end_time :=
        match info.end_time with
        | none => some ts
        | some e => if ts > e then some ts else some e
      frequency := info.frequency }
  alistSet ci m.topic info'

/-- `frequency = num_messages / duration if duration > 0 else None` with
`duration = (end_time or 0) - (start_time or 0)`. -/
def chanFinalize (ci : ChanInfo) : ChanInfo :=
  let duration := ci.end_time.getD 0 - ci.start_time.getD 0
  { ci with
      frequency := if 0 < duration then some ((ci.num_messages : ℚ) / duration) else none }

/-- `get_mcap_info`: per-channel statistics of one file, keyed by topic in
first-appearance order. -/
def get_mcap_info (msgs : List Msg) : List (String × ChanInfo) :=
  (msgs.foldl chanStep []).map (fun p => (p.1, chanFinalize p.2))

/-! ### Recording-level aggregation (mcap_utils.get_rec_info) -/

/-- One log file of a recording, with the facts the probe supplies: the
path relative to the recording directory, the decoded messages, the content
checksum and the byte size. -/
structure FileData where
  path : String
  msgs : List Msg
  md5sum : String
  size : ℕ
deriving DecidableEq

/-- The `merged_info` dictionary during `get_rec_info`'s file loop
(`files`/`topics` still keyed dictionaries). -/
structure RecAcc where
  name : String
  start_time : Option ℚ
  end_time : Option ℚ
  duration : Option ℚ
  path : String
  size : ℕ
  time_modified : ℚ
  files : List (String × FileEntry)
  topics : List (String × TopicEntry)
deriving DecidableEq

/-- The merged recording record after `get_rec_info` converts `files` and
`topics` to lists. -/
structure RecInfo where
  name : String
  start_time : Option ℚ
  end_time : Option ℚ
  duration : Option ℚ
  path : String
  size : ℕ
  time_modified : ℚ
  files : List FileEntry
  topics : List TopicEntry
deriving DecidableEq

/-- `os.path.basename`: the suffix after the last `/`. -/
def basename (s : String) : String :=
  String.mk (s.data.foldl (fun acc c => if c = '/' then [] else acc ++ [c]) [])

/-- Running minimum for the merged topic `start_time`: assign when the stored
value is `None`, else keep the smaller.  The outer `none` is the `TypeError`
Python would raise comparing `None` with a number. -/
def mergeLower (cur new : Option ℚ) : Option (Option ℚ) :=
  match cur with
  | none => some new
  | some c =>
    match new with
    | none => none
    | some n => some (some (if n < c then n else c))

/-- Running maximum for the merged topic `end_time` (see `mergeLower`). -/
def mergeUpper (cur new : Option ℚ) : Option (Option ℚ) :=
  match cur with
  | none => some new
  | some c =>
    match new with
    | none => none
    | some n => some (some (if n > c then n else c))

/-- One iteration of the topic-merge loop of `get_rec_info`: create the entry
on first appearance, then accumulate `count`, running min/max of
`start_time`/`end_time`, and recompute `duration` and `frequency`
(`0` sentinel when the duration is not positive). -/
def topicStep (tops : List (String × TopicEntry)) (p : String × ChanInfo) :
    Option (List (String × TopicEntry)) :=
  let topic := p.1
  let info := p.2
  let tops0 :=
    if alistContains tops topic then tops
    else
      alistSet tops topic
        { name := topic, type := info.message_type, start_time := none, end_time := none,
          duration := none, count := 0, frequency := none }
  match alistGet tops0 topic with
  | none => none
  | some mt =>
    match mergeLower mt.start_time info.start_time with
    | none => none
    | some ns =>
      match mergeUpper mt.end_time info.end_time with
      | none => none
      | some ne =>
        match ns, ne with
        | some s, some e =>
          let dur := e - s
          let count := mt.count + info.num_messages
          some (alistSet tops0 topic
            { name := topic, type := mt.type, start_time := ns, end_time := ne,
              duration := some dur, count := count,
              frequency := some (if 0 < dur then (count : ℚ) / dur else 0) })
        | _, _ => none

/-- One iteration of `get_rec_info`'s file loop: per-file channel statistics,
file entry (min/max over the file's channels — a `ValueError`/`TypeError`
from `min`/`max` is the outer `none`), overall time range, topic merge. -/
def recStep (acc : RecAcc) (f : FileData) : Option RecAcc :=
  let mi := get_mcap_info f.msgs
  match (mi.map (fun p => p.2.start_time)).mapM id with
  | none => none
  | some starts =>
    match starts.min? with
    | none => none
    | some fileStart =>
      match (mi.map (fun p => p.2.end_time)).mapM id with
      | none => none
      | some ends =>
        match ends.max? with
        | none => none
        | some fileEnd =>
          let fe : FileEntry :=
            { path := f.path, start_time := fileStart, end_time := fileEnd,
              duration := fileEnd - fileStart, md5sum := f.md5sum, size := f.size }
          let files' := alistSet acc.files f.path fe
          let newStart :=
            match acc.start_time with
            | none => some fileStart
            | some s => if fileStart < s then some fileStart else some s
          let newEnd :=
            match acc.end_time with
            | none => some fileEnd
            | some e => if fileEnd > e then some fileEnd else some e
          match mi.foldlM topicStep acc.topics with
          | none => none
          | some topics' =>
            some { acc with
              files := files', start_time := newStart, end_time := newEnd,
              topics := topics' }

/-- The initial `merged_info` dictionary of `get_rec_info`. -/
def initAcc (recording_path : String) (now : ℚ) : RecAcc :=
  { name := basename recording_path, start_time := none, end_time := none,
    duration := none, path := recording_path, size := 0, time_modified := now,
    files := [], topics := [] }

/-- The final block of `get_rec_info`: overall duration and size when the
time range is known, then `files`/`topics` dictionaries made lists. -/
def finalizeAcc (acc : RecAcc) : RecInfo :=
  let withTotals : RecAcc :=
    match acc.start_time, acc.end_time with
    | some s, some e =>
      { acc with
          duration := some (e - s)
          size := (acc.files.map (fun p : String × FileEntry => p.2.size)).sum }
    | _, _ => acc
  { name := withTotals.name, start_time := withTotals.start_time,
    end_time := withTotals.end_time, duration := withTotals.duration,
    path := withTotals.path, size := withTotals.size,
    time_modified := withTotals.time_modified,
    files := withTotals.files.map (fun p : String × FileEntry => p.2),
    topics := withTotals.topics.map (fun p : String × TopicEntry => p.2) }

/-- The file loop plus final block of `get_rec_info` over an already sorted
file list. -/
def buildRecInfo (recording_path : String) (files : List FileData) (now : ℚ) :
    Option RecInfo :=
  (files.foldlM recStep (initAcc recording_path now)).map finalizeAcc

/-- `sorted(glob.glob(...))`: files processed in lexicographic path order. -/
def sortFiles (files : List FileData) : List FileData :=
  files.mergeSort (fun a b => pyStrLe a.path b.path)

/-- A recording record as the `Val`-dictionary `get_rec_info` returns, keys
in the insertion order of the source. -/
def RecInfo.toDict (r : RecInfo) : List (String × Val) :=
  [("name", Val.str r.name),
   ("start_time", match r.start_time with | none => Val.null | some q => Val.num q),
   ("end_time", match r.end_time with | none => Val.null | some q => Val.num q),
   ("duration", match r.duration with | none => Val.null | some q => Val.num q),
   ("path", Val.str r.path),
   ("size", Val.num (r.size : ℚ)),
   ("time_modified", Val.num r.time_modified),
   ("files", Val.vfiles r.files),
   ("topics", Val.vtopics r.topics)]

/-- `get_rec_info`: `{}` when the directory holds no log files, otherwise the
merged recording dictionary; the outer `none` is a raised exception. -/
def get_rec_info (recording_path : String) (files : List FileData) (now : ℚ) :
    Option (List (String × Val)) :=
  if files.isEmpty then some []
  else (buildRecInfo recording_path (sortFiles files) now).map RecInfo.toDict

/-! ### Catalog store backends (utils/db/) -/

/-- A catalog record: a Python dict from field names to values. -/
abbrev Dict := List (String × Val)

/-- Exact-match query `record[column] == value` (false when the field is
absent), as produced by `Query()[column] == value` (TinyDB) or a term /
equality filter (Elasticsearch, MongoDB). -/
def recMatches (column : String) (v : Val) (d : Dict) : Bool :=
  alistGet d column == some v

/-- `TinyDBBackend` state: the list of stored documents in doc-id
(insertion) order. -/
def TinyDBBackend.get_all_records (db : List Dict) : List Dict := db

/-- `db.upsert(record, cond)`: merge `record` into every matching document,
else insert it. -/
def TinyDBBackend.upsert_record (db : List Dict) (record : Dict) (column : String)
    (v : Val) : List Dict :=
  if db.any (recMatches column v) then
    db.map (fun d => if recMatches column v d then alistUpdate d record else d)
  else db ++ [record]

def TinyDBBackend.insert_record (db : List Dict) (record : Dict) : List Dict :=
  db ++ [record]

def TinyDBBackend.contains_record (db : List Dict) (column : String) (v : Val) : Bool :=
  db.any (recMatches column v)

def TinyDBBackend.get_record (db : List Dict) (column : String) (v : Val) : Option Dict :=
  db.find? (recMatches column v)

def TinyDBBackend.search_record (db : List Dict) (column : String) (v : Val) : List Dict :=
  db.filter (recMatches column v)

def TinyDBBackend.remove_record (db : List Dict) (column : String) (v : Val) : List Dict :=
  db.filter (fun d => !(recMatches column v d))

def TinyDBBackend.truncate_database (_db : List Dict) : List Dict := []

def TinyDBBackend.insert_multiple_records (db : List Dict) (records : List Dict) :
    List Dict :=
  db ++ records

/-- Update the first document matched by `p` with `f`, keep the rest. -/
def updateFirst (p : Dict → Bool) (f : Dict → Dict) : List Dict → List Dict
  | [] => []
  | d :: ds => if p d then f d :: ds else d :: updateFirst p f ds

/-- `MongoDBBackend` state: documents in natural (insertion) order, without
the internal `_id` field (`get_all_records` projects it away). -/
def MongoDBBackend.get_all_records (db : List Dict) : List Dict := db

/-- `update_one({column: value}, {"$set": record}, upsert=True)`: `$set`
merges the supplied fields into the first matching document; on a miss the
inserted document is the filter equality merged with the `$set` fields. -/
def MongoDBBackend.upsert_record (db : List Dict) (record : Dict) (column : String)
    (v : Val) : List Dict :=
  if db.any (recMatches column v) then
    updateFirst (recMatches column v) (fun d => alistUpdate d record) db
  else db ++ [alistUpdate [(column, v)] record]

def MongoDBBackend.insert_record (db : List Dict) (record : Dict) : List Dict :=
  db ++ [record]

def MongoDBBackend.contains_record (db : List Dict) (column : String) (v : Val) : Bool :=
  db.any (recMatches column v)

def MongoDBBackend.get_record (db : List Dict) (column : String) (v : Val) : Option Dict :=
  db.find? (recMatches column v)

def MongoDBBackend.truncate_database (_db : List Dict) : List Dict := []

def MongoDBBackend.insert_multiple_records (db : List Dict) (records : List Dict) :
    List Dict :=
  db ++ records

/-- `ElasticsearchBackend.get_all_records`: one `match_all` search with
`size=10000` — at most the first 10000 documents, no scrolling. -/
def ElasticsearchBackend.get_all_records (db : List Dict) : List Dict :=
  db.take 10000

/-- `ElasticsearchBackend.upsert_record`: term query with `size=1`, partial
`update` (field merge) of that document, else index a new one. -/
def ElasticsearchBackend.upsert_record (db : List Dict) (record : Dict) (column : String)
    (v : Val) : List Dict :=
  if db.any (recMatches column v) then
    updateFirst (recMatches column v) (fun d => alistUpdate d record) db
  else db ++ [record]

def ElasticsearchBackend.contains_record (db : List Dict) (column : String) (v : Val) :
    Bool :=
  db.any (recMatches column v)

def ElasticsearchBackend.truncate_database (_db : List Dict) : List Dict := []

def ElasticsearchBackend.insert_multiple_records (db : List Dict) (records : List Dict) :
    List Dict :=
  db ++ records

/-- The part of an Elasticsearch field mapping read by
`_resolve_exact_field`: the `type` entry and the names of the declared
sub-fields.  The argument `none` models `_get_field_mapping` returning
`None` (mapping lookup failed or the field is unmapped). -/
structure FieldMapping where
  ftype : Option String
  fields : List String
deriving DecidableEq

/-- `ElasticsearchBackend._resolve_exact_field`: use `column.keyword` when
the field is analyzed text with a `keyword` sub-field; in every other case —
including analyzed text without a raw variant — fall back to the plain
column name. -/
def ElasticsearchBackend.resolve_exact_field (mapping : Option FieldMapping)
    (column : String) : String :=
  match mapping with
  | none => column
  | some fm =>
    if fm.ftype = some "text" then
      if "keyword" ∈ fm.fields then column ++ ".keyword" else column
    else column

/-! ### Metadata reconciliation and ingest (utils/bagman_utils.py) -/

/-- The merge step of `generate_metadata` with `merge_existing=True`:
`rec_metadata_old.update(rec_metadata)` — the freshly computed pairs are
assigned over the persisted document; with no persisted file the computed
metadata is returned unchanged. -/
def generate_metadata (computed : Dict) (persisted : Option Dict) : Dict :=
  match persisted with
  | some old => alistUpdate old computed
  | none => computed

/-- `add_recording`'s path normalization: overwrite `path` with the storage
path when present and different. -/
def fixPath (md : Dict) (recording_path : String) : Dict :=
  if alistContains md "path" then
    if alistGet md "path" = some (Val.str recording_path) then md
    else alistSet md "path" (Val.str recording_path)
  else md

/-- Metadata sourcing in `add_recording`: reuse the persisted file verbatim
when requested and present, else aggregate and reconcile
(`generate_metadata` with `merge_existing=True`). -/
def resolve_metadata (recording_path : String) (files : List FileData)
    (persisted : Option Dict) (use_existing_metadata : Bool) (now : ℚ) : Option Dict :=
  if use_existing_metadata && persisted.isSome then persisted
  else
    (get_rec_info recording_path files now).map
      (fun computed => generate_metadata computed persisted)

/-- Sort key of a catalog record: `x.get(sort_by, "")`. -/
def pyKey (sort_by : String) (d : Dict) : Val :=
  alistGetD d sort_by (Val.str "")

/-- Record comparison used by the full resort. -/
def recLeB (sort_by : String) (a b : Dict) : Bool :=
  pyLeB (pyKey sort_by a) (pyKey sort_by b)

/-- `sorted(all_records, key=lambda x: x.get(sort_by, ""))`: a stable
ascending sort. -/
def pySortDb (sort_by : String) (db : List Dict) : List Dict :=
  db.mergeSort (recLeB sort_by)

/-- `time_added` chosen by `add_recording`: the current time, unless a
catalog record of the same name already carries one. -/
def ingestTimeAdded (db : List Dict) (nameVal : Val) (now : ℚ) : Val :=
  if TinyDBBackend.contains_record db "name" nameVal then
    match (TinyDBBackend.get_record db "name" nameVal).bind
        (fun e => alistGet e "time_added") with
    | some ta => ta
    | none => Val.num now
  else Val.num now

/-- `add_recording`, file system abstracted: `files` are the log files found
at `recording_path`, `persisted` the metadata file found there, `now` the
clock.  Returns the catalog after the call together with the metadata-file
content after the call, or `none` when the call raises (aggregation error,
or `KeyError` on a metadata document without `"name"`); the catalog is
untouched in the `none` cases.  The catalog is the list-state common to the
backends; `store_metadata_file=True` is assumed. -/
def add_recording (db : List Dict) (recording_path : String) (files : List FileData)
    (persisted : Option Dict) (use_existing_metadata : Bool) (now : ℚ)
    (override_db : Bool) (sort_by : String) : Option (List Dict × Dict) :=
  match resolve_metadata recording_path files persisted use_existing_metadata now with
  | none => none
  | some md0 =>
    let md := fixPath md0 recording_path
    match alistGet md "name" with
    | none => none
    | some nameVal =>
      if TinyDBBackend.contains_record db "name" nameVal && !override_db then
        some (db, md)
      else
        let md' := alistSet md "time_added" (ingestTimeAdded db nameVal now)
        let db' := TinyDBBackend.upsert_record db md' "name" nameVal
        let all_records := TinyDBBackend.get_all_records db'
        let sorted_records := pySortDb sort_by all_records
        let db'' :=
          TinyDBBackend.insert_multiple_records
            (TinyDBBackend.truncate_database db') sorted_records
        some (db'', md)

/-- The catalog state of `add_recording` at the pre-sort `get_all_records`
fetch (after the upsert, before the resort); `none` whenever the call
raises or returns before reaching the upsert. -/
def add_recording_presort (db : List Dict) (recording_path : String)
    (files : List FileData) (persisted : Option Dict) (use_existing_metadata : Bool)
    (now : ℚ) (override_db : Bool) : Option (List Dict) :=
  match resolve_metadata recording_path files persisted use_existing_metadata now with
  | none => none
  | some md0 =>
    let md := fixPath md0 recording_path
    match alistGet md "name" with
    | none => none
    | some nameVal =>
      if TinyDBBackend.contains_record db "name" nameVal && !override_db then none
      else
        some (TinyDBBackend.upsert_record db
          (alistSet md "time_added" (ingestTimeAdded db nameVal now)) "name" nameVal)

/-! ### CLI orchestration (bagman.py add_or_update_recording) -/

/-- Outcome of `add_or_update_recording`.  `notFoundError` is modelled from
the spec: the NotFound error return that §4.4 step 2 prescribes for
`Ingest(Update)` without a catalog record; the source has no such return
path. -/
inductive CliResult where
  | notFoundError
  | exited (code : ℕ)
  | cancelled
  | ingested
  | raised
deriving DecidableEq

/-- `add_or_update_recording`: interactive confirmations are the boolean
arguments, `storage_has_recording` is `os.path.exists(recording_path)`, and
`persisted` the metadata file at the recording path.  Returns the outcome
together with the catalog after the call. -/
def add_or_update_recording (db : List Dict) (recording_path : String)
    (storage_has_recording : Bool) (confirm_override : Bool)
    (confirm_regenerate : Bool) (files : List FileData) (persisted : Option Dict)
    (now : ℚ) (sort_by : String) (add : Bool) : CliResult × List Dict :=
  let exists_recording :=
    TinyDBBackend.contains_record db "name" (Val.str (basename recording_path))
  let use_existing_metadata := persisted.isSome && !confirm_regenerate
  let run : CliResult × List Dict :=
    match add_recording db recording_path files persisted use_existing_metadata now
        true sort_by with
    | some (db', _) => (CliResult.ingested, db')
    | none => (CliResult.raised, db)
  if add then
    if !storage_has_recording then (CliResult.exited 0, db)
    else if exists_recording && !confirm_override then (CliResult.cancelled, db)
    else run
  else
    if !exists_recording then (CliResult.exited 0, db)
    else run

/-! ### Properties of the full resort -/

theorem recLeB_trans (sort_by : String) :
    ∀ a b c : Dict, recLeB sort_by a b = true → recLeB sort_by b c = true →
      recLeB sort_by a c = true :=
  fun _ _ _ h1 h2 => pyLeB_trans h1 h2

theorem recLeB_total (sort_by : String) :
    ∀ a b : Dict, (recLeB sort_by a b || recLeB sort_by b a) = true :=
  fun _ _ => pyLeB_total _ _

theorem pySortDb_perm (sort_by : String) (db : List Dict) :
    (pySortDb sort_by db).Perm db :=
  List.mergeSort_perm db _

theorem pySortDb_sorted (sort_by : String) (db : List Dict) :
    (pySortDb sort_by db).Pairwise (fun a b => recLeB sort_by a b = true) :=
  List.sorted_mergeSort (recLeB_trans sort_by) (recLeB_total sort_by) db

/-- Stability of the resort: records with any fixed sort-key value keep
their relative order from the unsorted fetch. -/
theorem pySortDb_filter_key (sort_by : String) (db : List Dict) (v : Val) :
    (pySortDb sort_by db).filter (fun d => pyKey sort_by d == v)
      = db.filter (fun d => pyKey sort_by d == v) := by
  set p : Dict → Bool := fun d => pyKey sort_by d == v with hp
  have hpair : (db.filter p).Pairwise (fun a b => recLeB sort_by a b = true) := by
    apply List.pairwise_of_forall_mem_list
    intro a ha b hb
    have hka : pyKey sort_by a = v := by
      simpa [hp] using (List.of_mem_filter ha)
    have hkb : pyKey sort_by b = v := by
      simpa [hp] using (List.of_mem_filter hb)
    rw [recLeB, hka, hkb]
    exact pyLeB_refl v
  have h1 : (db.filter p).Sublist (pySortDb sort_by db) :=
    List.sublist_mergeSort (recLeB_trans sort_by) (recLeB_total sort_by) hpair
      (List.filter_sublist db)
  have h2 : (db.filter p).Sublist ((pySortDb sort_by db).filter p) := by
    have := List.Sublist.filter p h1
    rwa [List.filter_filter, show (fun a => p a && p a) = p from funext fun a => Bool.and_self _]
      at this
  have h3 : ((pySortDb sort_by db).filter p).Perm (db.filter p) :=
    List.Perm.filter p (pySortDb_perm sort_by db)
  exact (h2.eq_of_length h3.length_eq.symm).symm

/-! ### Helper lemmas about the stores -/

theorem find?_eq_some_of_unique {p : Dict → Bool} :
    ∀ {l : List Dict} {a : Dict}, a ∈ l → p a = true → l.countP p = 1 →
      l.find? p = some a := by
  intro l
  induction l with
  | nil => intro a ha _ _; cases ha
  | cons d ds ih =>
    intro a ha hpa hc
    rw [List.countP_cons] at hc
    by_cases hd : p d = true
    · rw [List.find?_cons_of_pos _ hd]
      rw [if_pos hd] at hc
      have hds : ds.countP p = 0 := by omega
      rcases List.mem_cons.mp ha with h | h
      · rw [h]
      · exact absurd hpa (List.countP_eq_zero.mp hds a h)
    · rw [List.find?_cons_of_neg _ hd]
      rw [if_neg hd] at hc
      rcases List.mem_cons.mp ha with h | h
      · exact absurd (h ▸ hpa) hd
      · exact ih h hpa (by omega)

theorem tiny_upsert_of_not_contains {db : List Dict} {column : String} {v : Val}
    (record : Dict) (h : TinyDBBackend.contains_record db column v = false) :
    TinyDBBackend.upsert_record db record column v = db ++ [record] := by
  have h' : db.any (recMatches column v) = false := h
  rw [TinyDBBackend.upsert_record, if_neg (by simp [h'])]

theorem tiny_upsert_of_contains {db : List Dict} {column : String} {v : Val}
    (record : Dict) (h : TinyDBBackend.contains_record db column v = true) :
    TinyDBBackend.upsert_record db record column v
      = db.map (fun d => if recMatches column v d then alistUpdate d record else d) := by
  have h' : db.any (recMatches column v) = true := h
  rw [TinyDBBackend.upsert_record, if_pos h']

theorem updateFirst_length (p : Dict → Bool) (f : Dict → Dict) :
    ∀ l : List Dict, (updateFirst p f l).length = l.length := by
  intro l
  induction l with
  | nil => rfl
  | cons d ds ih =>
    rw [updateFirst]
    by_cases hd : p d = true
    · rw [if_pos hd, List.length_cons, List.length_cons]
    · rw [if_neg hd, List.length_cons, List.length_cons, ih]

theorem updateFirst_getElem? (p : Dict → Bool) (f : Dict → Dict) :
    ∀ (l : List Dict) (i : ℕ),
      (updateFirst p f l)[i]? = l[i]?
        ∨ ∃ d, l[i]? = some d ∧ (updateFirst p f l)[i]? = some (f d) := by
  intro l
  induction l with
  | nil => intro i; left; rfl
  | cons d ds ih =>
    intro i
    rw [updateFirst]
    by_cases hd : p d = true
    · rw [if_pos hd]
      cases i with
      | zero => exact Or.inr ⟨d, List.getElem?_cons_zero, List.getElem?_cons_zero⟩
      | succ n => left; rw [List.getElem?_cons_succ, List.getElem?_cons_succ]
    · rw [if_neg hd]
      cases i with
      | zero => left; rw [List.getElem?_cons_zero, List.getElem?_cons_zero]
      | succ n =>
        rw [List.getElem?_cons_succ, List.getElem?_cons_succ]
        exact ih n

/-- `add_recording` reaches the resort exactly when the pre-sort state is
defined, and then returns it sorted. -/
theorem add_recording_eq_sort_presort {db : List Dict} {recording_path : String}
    {files : List FileData} {persisted : Option Dict} {ue : Bool} {now : ℚ} {ov : Bool}
    (sort_by : String) {pre : List Dict}
    (h : add_recording_presort db recording_path files persisted ue now ov = some pre) :
    ∃ f', add_recording db recording_path files persisted ue now ov sort_by
      = some (pySortDb sort_by pre, f') := by
  rw [add_recording_presort] at h
  rw [add_recording]
  cases hr : resolve_metadata recording_path files persisted ue now with
  | none => rw [hr] at h; cases h
  | some md0 =>
    rw [hr] at h
    simp only at h ⊢
    cases hn : alistGet (fixPath md0 recording_path) "name" with
    | none => rw [hn] at h; cases h
    | some nv =>
      rw [hn] at h
      simp only at h ⊢
      by_cases hc : (TinyDBBackend.contains_record db "name" nv && !ov) = true
      · rw [if_pos hc] at h; cases h
      · rw [if_neg hc] at h ⊢
        refine ⟨fixPath md0 recording_path, ?_⟩
        have hpre : pre = TinyDBBackend.upsert_record db
            (alistSet (fixPath md0 recording_path) "time_added"
              (ingestTimeAdded db nv now)) "name" nv := by
          cases h; rfl
        rw [hpre]
        rfl

/-! ### Claim C6 — GetAll result limits -/

/-- C6 (counterexample): `GetAll` does not return every record on every
backend: on a search-index catalog of 10001 records,
`ElasticsearchBackend.get_all_records` returns only 10000 — one stored
record is missing from the result. -/
theorem C6_counterexample_es_get_all_caps :
    (ElasticsearchBackend.get_all_records (List.replicate 10001 ([] : Dict))).length = 10000
      ∧ (List.replicate 10001 ([] : Dict)).length = 10001
      ∧ (10000 : ℕ) ≠ 10001 := by
  refine ⟨?_, by rw [List.length_replicate], by norm_num⟩
  rw [ElasticsearchBackend.get_all_records, List.length_take, List.length_replicate]
  omega

/-- C6 (amended): `get_all_records` returns every stored record on the
TinyDB and MongoDB backends; the Elasticsearch backend issues a single
search with `size=10000` and no internal pagination, so it returns exactly
the first 10000 records — the full catalog only when it has at most 10000
records. -/
theorem C6_get_all_records_limits (db : List Dict) :
    TinyDBBackend.get_all_records db = db
      ∧ MongoDBBackend.get_all_records db = db
      ∧ ElasticsearchBackend.get_all_records db = db.take 10000
      ∧ (ElasticsearchBackend.get_all_records db = db ↔ db.length ≤ 10000) := by
  refine ⟨rfl, rfl, rfl, ?_⟩
  rw [ElasticsearchBackend.get_all_records]
  exact List.take_eq_self_iff db

/-! ### Claim C7 — exact-match field resolution in the search index -/

/-- C7 (counterexample): for an analyzed `text` field without a `keyword`
sub-field, `_resolve_exact_field` silently falls back to the plain
(analyzed) field name instead of a raw variant or a loud failure; likewise
when the mapping lookup fails entirely. -/
theorem C7_counterexample_silent_fallback :
    ElasticsearchBackend.resolve_exact_field
        (some { ftype := some "text", fields := [] }) "name" = "name"
      ∧ ElasticsearchBackend.resolve_exact_field none "name" = "name"
      ∧ ("name" : String) ≠ "name" ++ ".keyword" := by
  exact ⟨rfl, rfl, by decide⟩

/-- C7 (amended): exact-match operations resolve the query field through
`_resolve_exact_field`, which uses the non-analyzed `column.keyword`
sub-field exactly when the mapping shows an analyzed `text` field with a
declared `keyword` sub-field; in every other case — mapping lookup failed,
non-text field, or text without a raw variant — it silently falls back to
the plain column name (tokenized matching for analyzed text). -/
theorem C7_resolve_exact_field_spec (m : Option FieldMapping) (c : String) :
    ((∃ fm, m = some fm ∧ fm.ftype = some "text" ∧ "keyword" ∈ fm.fields) →
        ElasticsearchBackend.resolve_exact_field m c = c ++ ".keyword")
      ∧ ((¬ ∃ fm, m = some fm ∧ fm.ftype = some "text" ∧ "keyword" ∈ fm.fields) →
        ElasticsearchBackend.resolve_exact_field m c = c) := by
  constructor
  · rintro ⟨fm, rfl, ht, hk⟩
    rw [ElasticsearchBackend.resolve_exact_field, if_pos ht, if_pos hk]
  · intro h
    cases m with
    | none => rfl
    | some fm =>
      rw [ElasticsearchBackend.resolve_exact_field]
      by_cases ht : fm.ftype = some "text"
      · rw [if_pos ht]
        by_cases hk : "keyword" ∈ fm.fields
        · exact absurd ⟨fm, rfl, ht, hk⟩ h
        · rw [if_neg hk]
      · rw [if_neg ht]

/-- C7 (witness). -/
theorem C7_resolve_exact_field_spec_witness :
    ElasticsearchBackend.resolve_exact_field
        (some { ftype := some "text", fields := ["keyword"] }) "name" = "name" ++ ".keyword"
      ∧ ElasticsearchBackend.resolve_exact_field
        (some { ftype := some "long", fields := [] }) "size" = "size" :=
  ⟨(C7_resolve_exact_field_spec (some { ftype := some "text", fields := ["keyword"] })
      "name").1 ⟨_, rfl, rfl, by decide⟩,
   (C7_resolve_exact_field_spec (some { ftype := some "long", fields := [] }) "size").2
      (by rintro ⟨fm, h, ht, hk⟩; cases h; exact absurd ht (by decide))⟩

/-! ### Claim C8 — Ingest(Update) without a catalog record -/

/-- C8 (counterexample): `Ingest(Update)` on a recording that has no catalog
record does not return a NotFound error to the caller: the CLI prints a
message and terminates the process through `sys.exit(0)` — a success exit
code — so the outcome is `exited 0`, not an error value. -/
theorem C8_counterexample_update_exits_process :
    add_or_update_recording [] "st/r" true true true [] none 7 "start_time" false
        = (CliResult.exited 0, [])
      ∧ CliResult.exited 0 ≠ CliResult.notFoundError := by
  exact ⟨by decide, by decide⟩

/-- C8 (amended): `Ingest(Update)` (`add_or_update_recording` with
`add=False`) on a recording whose name has no catalog record performs no
catalog write and aborts by printing a message and calling `sys.exit(0)`
(process exit with success status), rather than returning a NotFound error
to the caller. -/
theorem C8_update_not_catalogued (db : List Dict) (recording_path : String)
    (storage_has_recording confirm_override confirm_regenerate : Bool)
    (files : List FileData) (persisted : Option Dict) (now : ℚ) (sort_by : String)
    (h : TinyDBBackend.contains_record db "name" (Val.str (basename recording_path))
      = false) :
    add_or_update_recording db recording_path storage_has_recording confirm_override
        confirm_regenerate files persisted now sort_by false
      = (CliResult.exited 0, db) := by
  rw [add_or_update_recording]
  simp [h]

/-- C8 (witness). -/
theorem C8_update_not_catalogued_witness :
    TinyDBBackend.contains_record [[("name", Val.str "other")]] "name"
        (Val.str (basename "st/r")) = false
      ∧ add_or_update_recording [[("name", Val.str "other")]] "st/r" true true true []
          none 7 "start_time" false
        = (CliResult.exited 0, [[("name", Val.str "other")]]) :=
  ⟨by decide,
   C8_update_not_catalogued [[("name", Val.str "other")]] "st/r" true true true []
     none 7 "start_time" (by decide)⟩

/-! ### Claim C5 — recordings with zero log files -/

/-- C5 (counterexample): `Ingest(Add)` on a recording directory with zero
log files CAN create a catalog record: when a stale metadata file is present
in the directory, its content survives the merge with the empty aggregation
result `{}` and is inserted into the catalog. -/
theorem C5_counterexample_stale_metadata_ingested :
    add_recording [] "st/r" [] (some [("name", Val.str "r")]) false 5 true "start_time"
        = some ([[("name", Val.str "r"), ("time_added", Val.num 5)]],
                [("name", Val.str "r")])
      ∧ ([[("name", Val.str "r"), ("time_added", Val.num 5)]] : List Dict).length ≠ 0 := by
  refine ⟨?_, by decide⟩
  simp [add_recording, resolve_metadata, get_rec_info, generate_metadata, alistUpdate,
    fixPath, alistContains, alistGet, alistSet, ingestTimeAdded,
    TinyDBBackend.contains_record, TinyDBBackend.get_record, TinyDBBackend.upsert_record,
    TinyDBBackend.get_all_records, TinyDBBackend.truncate_database,
    TinyDBBackend.insert_multiple_records, pySortDb, List.mergeSort_singleton, recMatches]

/-- C5 (amended): `get_rec_info` on a directory with zero log files returns
the empty dictionary; `add_recording` on such a directory with NO metadata
file raises (`KeyError` on the missing `name` field) before any catalog
operation, so the catalog is unchanged and no record is created.  With a
stale metadata file present, however, a record IS created from the stale
content (see the counterexample). -/
theorem C5_empty_recording (db : List Dict) (recording_path : String)
    (use_existing_metadata override_db : Bool) (now : ℚ) (sort_by : String) :
    get_rec_info recording_path [] now = some []
      ∧ add_recording db recording_path [] none use_existing_metadata now override_db
          sort_by = none := by
  constructor
  · rfl
  · cases use_existing_metadata <;> rfl

/-! ### Claim C3 — reconciliation precedence -/

/-- The structural fields of a recording record, all present in every
`get_rec_info` result. -/
def structuralKeys : List String :=
  ["name", "start_time", "end_time", "duration", "path", "size", "time_modified",
   "files", "topics"]

theorem toDict_contains_structural (r : RecInfo) {k : String}
    (hk : k ∈ structuralKeys) : alistContains (RecInfo.toDict r) k = true := by
  fin_cases hk <;> rfl

theorem toDict_keys_nodup (r : RecInfo) : (alistKeys (RecInfo.toDict r)).Nodup := by
  show (List.map Prod.fst (RecInfo.toDict r)).Nodup
  rw [RecInfo.toDict]
  simp only [List.map_cons, List.map_nil]
  decide

/-- C3: when `generate_metadata` merges a freshly computed recording record
with a persisted metadata document, every structural field (name, path,
start/end times, duration, size, time_modified, files, topics) of the result
comes from the computed record — persisted copies of those keys are
discarded — while persisted keys absent from the computed record survive
into the result. -/
theorem C3_reconcile_precedence (r : RecInfo) (old : Dict) :
    (∀ k ∈ structuralKeys,
        alistGet (generate_metadata (RecInfo.toDict r) (some old)) k
          = alistGet (RecInfo.toDict r) k)
      ∧ (∀ k : String, alistContains (RecInfo.toDict r) k = false →
        alistGet (generate_metadata (RecInfo.toDict r) (some old)) k = alistGet old k)
      ∧ (∀ k ∈ structuralKeys, alistContains (RecInfo.toDict r) k = true) := by
  refine ⟨?_, ?_, fun k hk => toDict_contains_structural r hk⟩
  · intro k hk
    rw [generate_metadata]
    exact alistUpdate_get_of_contains_nodup (toDict_keys_nodup r)
      (toDict_contains_structural r hk)
  · intro k hk
    rw [generate_metadata]
    exact alistUpdate_get_of_not_contains hk

/-- C3 (witness): on a concrete computed record and a persisted document
carrying a stale `files` copy and a user field `operator`, the merge takes
`files` from the computed record and keeps `operator` from the persisted
document. -/
theorem C3_reconcile_precedence_witness :
    ("files" ∈ structuralKeys
      ∧ alistGet (generate_metadata
            (RecInfo.toDict ⟨"r", some 0, some 1, some 1, "st/r", 5, 2, [], []⟩)
            (some [("files", Val.null), ("operator", Val.str "me")])) "files"
          = alistGet (RecInfo.toDict ⟨"r", some 0, some 1, some 1, "st/r", 5, 2, [], []⟩)
              "files")
      ∧ (alistContains (RecInfo.toDict ⟨"r", some 0, some 1, some 1, "st/r", 5, 2, [], []⟩)
            "operator" = false
        ∧ alistGet (generate_metadata
              (RecInfo.toDict ⟨"r", some 0, some 1, some 1, "st/r", 5, 2, [], []⟩)
              (some [("files", Val.null), ("operator", Val.str "me")])) "operator"
            = alistGet [("files", Val.null), ("operator", Val.str "me")] "operator") :=
  ⟨⟨by decide,
    (C3_reconcile_precedence ⟨"r", some 0, some 1, some 1, "st/r", 5, 2, [], []⟩
        [("files", Val.null), ("operator", Val.str "me")]).1 "files" (by decide)⟩,
   by decide,
   (C3_reconcile_precedence ⟨"r", some 0, some 1, some 1, "st/r", 5, 2, [], []⟩
       [("files", Val.null), ("operator", Val.str "me")]).2.1 "operator" (by decide)⟩

/-! ### Claim C10 — upsert is a field-wise merge -/

/-- Field preservation of one merged document: fields not supplied keep
their value, and no stored field disappears. -/
theorem alistUpdate_preserves (d record : Dict) (k : String) :
    (alistContains record k = false → alistGet (alistUpdate d record) k = alistGet d k)
      ∧ (alistContains d k = true → alistContains (alistUpdate d record) k = true) :=
  ⟨fun h => alistUpdate_get_of_not_contains h,
   fun h => by rw [alistContains_update, h, Bool.true_or]⟩

/-- The two preservation properties, for a store whose post-upsert state
relates position-wise to the old state by an optional `alistUpdate`. -/
theorem updateFirst_preserves (record : Dict) (p : Dict → Bool) (db : List Dict)
    (i : ℕ) (k : String) :
    (alistContains record k = false →
        ((updateFirst p (fun d => alistUpdate d record) db)[i]?.map
            (fun d => alistGet d k))
          = (db[i]?.map (fun d => alistGet d k)))
      ∧ ((db[i]?.map (fun d => alistContains d k)) = some true →
        ((updateFirst p (fun d => alistUpdate d record) db)[i]?.map
            (fun d => alistContains d k)) = some true) := by
  rcases updateFirst_getElem? p (fun d => alistUpdate d record) db i with h | ⟨d, hd, hu⟩
  · rw [h]
    exact ⟨fun _ => rfl, fun h2 => h2⟩
  · rw [hd, hu]
    constructor
    · intro hk
      rw [Option.map_some', Option.map_some', (alistUpdate_preserves d record k).1 hk]
    · intro h2
      rw [Option.map_some'] at h2
      rw [Option.map_some', (alistUpdate_preserves d record k).2 (by simpa using h2)]

/-- C10: on every backend, when `upsert_record` matches an existing stored
record by the key field, it updates by field-wise merge rather than
replacement: the store keeps its size, every stored record is either
untouched or merged with the supplied fields, every field of a stored record
that is not a key of the supplied record keeps its previous value, and no
field of a stored record is removed. -/
theorem C10_upsert_field_merge (db : List Dict) (record : Dict) (column : String)
    (v : Val) (hmatch : db.any (recMatches column v) = true) :
    ((TinyDBBackend.upsert_record db record column v).length = db.length
      ∧ ∀ (i : ℕ) (k : String),
        (alistContains record k = false →
          ((TinyDBBackend.upsert_record db record column v)[i]?.map
              (fun d => alistGet d k)) = (db[i]?.map (fun d => alistGet d k)))
        ∧ ((db[i]?.map (fun d => alistContains d k)) = some true →
          ((TinyDBBackend.upsert_record db record column v)[i]?.map
              (fun d => alistContains d k)) = some true))
    ∧ ((MongoDBBackend.upsert_record db record column v).length = db.length
      ∧ ∀ (i : ℕ) (k : String),
        (alistContains record k = false →
          ((MongoDBBackend.upsert_record db record column v)[i]?.map
              (fun d => alistGet d k)) = (db[i]?.map (fun d => alistGet d k)))
        ∧ ((db[i]?.map (fun d => alistContains d k)) = some true →
          ((MongoDBBackend.upsert_record db record column v)[i]?.map
              (fun d => alistContains d k)) = some true))
    ∧ ((ElasticsearchBackend.upsert_record db record column v).length = db.length
      ∧ ∀ (i : ℕ) (k : String),
        (alistContains record k = false →
          ((ElasticsearchBackend.upsert_record db record column v)[i]?.map
              (fun d => alistGet d k)) = (db[i]?.map (fun d => alistGet d k)))
        ∧ ((db[i]?.map (fun d => alistContains d k)) = some true →
          ((ElasticsearchBackend.upsert_record db record column v)[i]?.map
              (fun d => alistContains d k)) = some true)) := by
  have htiny : TinyDBBackend.upsert_record db record column v
      = db.map (fun d => if recMatches column v d then alistUpdate d record else d) :=
    tiny_upsert_of_contains record hmatch
  have hmongo : MongoDBBackend.upsert_record db record column v
      = updateFirst (recMatches column v) (fun d => alistUpdate d record) db := by
    rw [MongoDBBackend.upsert_record, if_pos hmatch]
  have hes : ElasticsearchBackend.upsert_record db record column v
      = updateFirst (recMatches column v) (fun d => alistUpdate d record) db := by
    rw [ElasticsearchBackend.upsert_record, if_pos hmatch]
  refine ⟨⟨by rw [htiny, List.length_map], ?_⟩,
          ⟨by rw [hmongo, updateFirst_length], ?_⟩,
          ⟨by rw [hes, updateFirst_length], ?_⟩⟩
  · intro i k
    rw [htiny, List.getElem?_map]
    rcases hdi : db[i]? with _ | d
    · exact ⟨fun _ => rfl, fun h2 => by rw [Option.map_none'] at h2 ⊢; cases h2⟩
    · simp only [Option.map_some']
      by_cases hm : recMatches column v d = true
      · rw [if_pos hm]
        exact ⟨fun hk => by rw [(alistUpdate_preserves d record k).1 hk],
               fun h2 => by
                 rw [(alistUpdate_preserves d record k).2 (by simpa using h2)]⟩
      · rw [if_neg hm]
        exact ⟨fun _ => rfl, fun h2 => h2⟩
  · intro i k
    rw [hmongo]
    exact updateFirst_preserves record (recMatches column v) db i k
  · intro i k
    rw [hes]
    exact updateFirst_preserves record (recMatches column v) db i k

/-- C10 (witness): a store with one matching record, updated with a record
that omits field `b`: the stored `b` keeps its value on all three backends
(instantiating the theorem at index 0 and field `b`). -/
theorem C10_upsert_field_merge_witness :
    ([[("name", Val.str "r"), ("b", Val.num 2)]] : List Dict).any
        (recMatches "name" (Val.str "r")) = true
      ∧ ((TinyDBBackend.upsert_record [[("name", Val.str "r"), ("b", Val.num 2)]]
            [("name", Val.str "r"), ("a", Val.num 9)] "name" (Val.str "r"))[0]?.map
          (fun d => alistGet d "b"))
        = (([[("name", Val.str "r"), ("b", Val.num 2)]] : List Dict)[0]?.map
          (fun d => alistGet d "b")) :=
  ⟨by decide,
   ((C10_upsert_field_merge [[("name", Val.str "r"), ("b", Val.num 2)]]
      [("name", Val.str "r"), ("a", Val.num 9)] "name" (Val.str "r")
      (by decide)).1.2 0 "b").1 (by decide)⟩

/-! ### Claim C9 — the undefined-frequency sentinel -/

theorem alistGet_map_snd {α β : Type} (f : α → β) (l : List (String × α)) (k : String) :
    alistGet (l.map (fun p => (p.1, f p.2))) k = (alistGet l k).map f := by
  induction l with
  | nil => rfl
  | cons p l ih =>
    by_cases hp : p.1 = k
    · rw [List.map_cons, alistGet_cons_self (p := (p.1, f p.2)) hp, alistGet_cons_self hp]
      rfl
    · rw [List.map_cons, alistGet_cons_ne (p := (p.1, f p.2)) hp, alistGet_cons_ne hp]
      exact ih

/-- The frequency/duration/count relation maintained for every merged topic
entry: once `duration` is set, `frequency` is `count/duration` for positive
duration and the sentinel `0` otherwise. -/
def TopicFreqOK (e : TopicEntry) : Prop :=
  ∀ d : ℚ, e.duration = some d →
    e.frequency = some (if 0 < d then (e.count : ℚ) / d else 0)

theorem topicStep_mem {tops : List (String × TopicEntry)} {p : String × ChanInfo}
    {tops' : List (String × TopicEntry)} (h : topicStep tops p = some tops') :
    ∀ q ∈ tops', q ∈ tops ∨ q.2.duration = none
      ∨ ∃ dur : ℚ, q.2.duration = some dur
          ∧ q.2.frequency = some (if 0 < dur then (q.2.count : ℚ) / dur else 0) := by
  intro q hq
  rw [topicStep] at h
  split at h
  · cases h
  · split at h
    · cases h
    · split at h
      · cases h
      · split at h
        · have heq := Option.some.inj h
          rw [← heq] at hq
          by_cases hc : alistContains tops p.1 = true
          · rw [if_pos hc] at hq
            rcases alistSet_mem hq with hmem | hfin
            · exact Or.inl hmem
            · rw [hfin]
              exact Or.inr (Or.inr ⟨_, rfl, rfl⟩)
          · rw [if_neg hc] at hq
            rcases alistSet_mem hq with hmem | hfin
            · rcases alistSet_mem hmem with hmem' | hinit
              · exact Or.inl hmem'
              · refine Or.inr (Or.inl ?_)
                rw [hinit]
            · rw [hfin]
              exact Or.inr (Or.inr ⟨_, rfl, rfl⟩)
        · cases h

theorem topicFold_invariant :
    ∀ (mi : List (String × ChanInfo)) (tops tops' : List (String × TopicEntry)),
      mi.foldlM topicStep tops = some tops' →
      (∀ q ∈ tops, TopicFreqOK q.2) → ∀ q ∈ tops', TopicFreqOK q.2 := by
  intro mi
  induction mi with
  | nil =>
    intro tops tops' h hP
    cases h
    exact hP
  | cons c cs ih =>
    intro tops tops' h hP
    rw [List.foldlM_cons] at h
    rcases Option.bind_eq_some.mp h with ⟨t1, h1, h2⟩
    refine ih t1 tops' h2 ?_
    intro q hq
    rcases topicStep_mem h1 q hq with hmem | hnone | ⟨dur, hd, hf⟩
    · exact hP q hmem
    · intro d hdur
      rw [hnone] at hdur
      cases hdur
    · intro d hdur
      have hdd : dur = d := by
        rw [hd] at hdur
        exact Option.some.inj hdur
      rw [hf, hdd]

theorem recStep_topics {acc : RecAcc} {f : FileData} {acc' : RecAcc}
    (h : recStep acc f = some acc') :
    (get_mcap_info f.msgs).foldlM topicStep acc.topics = some acc'.topics := by
  rw [recStep] at h
  rcases h1 : (List.map (fun p : String × ChanInfo => p.2.start_time)
      (get_mcap_info f.msgs)).mapM id with _ | starts
  · simp only [h1] at h
    cases h
  · simp only [h1] at h
    rcases h2 : starts.min? with _ | fileStart
    · simp only [h2] at h
      cases h
    · simp only [h2] at h
      rcases h3 : (List.map (fun p : String × ChanInfo => p.2.end_time)
          (get_mcap_info f.msgs)).mapM id with _ | ends
      · simp only [h3] at h
        cases h
      · simp only [h3] at h
        rcases h4 : ends.max? with _ | fileEnd
        · simp only [h4] at h
          cases h
        · simp only [h4] at h
          rcases h5 : (get_mcap_info f.msgs).foldlM topicStep acc.topics with _ | topics'
          · simp only [h5] at h
            cases h
          · simp only [h5] at h
            rw [← Option.some.inj h]

theorem recFold_topics_invariant :
    ∀ (files : List FileData) (acc acc' : RecAcc),
      files.foldlM recStep acc = some acc' →
      (∀ q ∈ acc.topics, TopicFreqOK q.2) → ∀ q ∈ acc'.topics, TopicFreqOK q.2 := by
  intro files
  induction files with
  | nil =>
    intro acc acc' h hP
    cases h
    exact hP
  | cons f fs ih =>
    intro acc acc' h hP
    rw [List.foldlM_cons] at h
    rcases Option.bind_eq_some.mp h with ⟨a1, h1, h2⟩
    exact ih a1 acc' h2
      (topicFold_invariant (get_mcap_info f.msgs) acc.topics a1.topics (recStep_topics h1) hP)

theorem finalizeAcc_topics (acc : RecAcc) :
    (finalizeAcc acc).topics = acc.topics.map (fun p => p.2) := by
  rw [finalizeAcc]
  rcases acc.start_time with _ | s <;> rcases acc.end_time with _ | e <;> rfl

theorem buildRecInfo_topics_invariant {recording_path : String} {files : List FileData}
    {now : ℚ} {r : RecInfo} (h : buildRecInfo recording_path files now = some r) :
    ∀ e ∈ r.topics, TopicFreqOK e := by
  rw [buildRecInfo] at h
  rcases Option.map_eq_some'.mp h with ⟨accF, hfold, hr⟩
  intro e he
  rw [← hr, finalizeAcc_topics] at he
  rcases List.mem_map.mp he with ⟨q, hq, hqe⟩
  rw [← hqe]
  exact recFold_topics_invariant files (initAcc recording_path now) accF hfold
    (by intro q hq; cases hq) q hq

/-- C9 (amended): in both statistics paths, `frequency = count / duration`
when `duration > 0`; but the sentinel for non-positive duration differs by
path: `get_mcap_info` (per file) leaves `frequency = None`, while the
recording-level merge of `get_rec_info` stores `0`. -/
theorem C9_frequency_sentinels :
    (∀ (msgs : List Msg) (T : String) (info : ChanInfo),
        alistGet (get_mcap_info msgs) T = some info →
          info.frequency =
            if 0 < info.end_time.getD 0 - info.start_time.getD 0 then
              some ((info.num_messages : ℚ)
                / (info.end_time.getD 0 - info.start_time.getD 0))
            else none)
      ∧ (∀ (recording_path : String) (files : List FileData) (now : ℚ) (r : RecInfo),
          buildRecInfo recording_path files now = some r →
            ∀ e ∈ r.topics, ∀ d : ℚ, e.duration = some d →
              e.frequency = some (if 0 < d then (e.count : ℚ) / d else 0)) := by
  constructor
  · intro msgs T info h
    rw [get_mcap_info, alistGet_map_snd] at h
    rcases Option.map_eq_some'.mp h with ⟨ci, _, hci⟩
    rw [← hci]
    rfl
  · intro recording_path files now r h e he d hd
    exact buildRecInfo_topics_invariant h e he d hd

/-- C9 (witness): instantiating both paths on one-message inputs. -/
theorem C9_frequency_sentinels_witness :
    (alistGet (get_mcap_info [⟨"/t", "T", some 5000000000⟩]) "/t"
        = some ⟨1, some "T", some 5, some 5, none⟩
      ∧ (⟨1, some "T", some 5, some 5, none⟩ : ChanInfo).frequency =
          if 0 < (⟨1, some "T", some 5, some 5, none⟩ : ChanInfo).end_time.getD 0
              - (⟨1, some "T", some 5, some 5, none⟩ : ChanInfo).start_time.getD 0 then
            some (((⟨1, some "T", some 5, some 5, none⟩ : ChanInfo).num_messages : ℚ)
              / ((⟨1, some "T", some 5, some 5, none⟩ : ChanInfo).end_time.getD 0
                - (⟨1, some "T", some 5, some 5, none⟩ : ChanInfo).start_time.getD 0))
          else none)
      ∧ (buildRecInfo "st/r" [⟨"c.mcap", [⟨"/t", "T", some 5000000000⟩], "m3", 10⟩] 0
          = some ⟨"r", some 5, some 5, some 0, "st/r", 10, 0,
              [⟨"c.mcap", 5, 5, 0, "m3", 10⟩],
              [⟨"/t", some "T", some 5, some 5, some 0, 1, some 0⟩]⟩
        ∧ (⟨"/t", some "T", some 5, some 5, some 0, 1, some 0⟩ : TopicEntry).frequency
            = some (if 0 < (0 : ℚ) then
                ((⟨"/t", some "T", some 5, some 5, some 0, 1, some 0⟩ : TopicEntry).count : ℚ)
                  / 0
              else 0)) := by
  have h1 : alistGet (get_mcap_info [⟨"/t", "T", some 5000000000⟩]) "/t"
      = some ⟨1, some "T", some 5, some 5, none⟩ := by
    simp [get_mcap_info, chanStep, chanFinalize, msgTimestamp, alistGetD, alistGet,
      alistSet, emptyChan, alistContains]
    norm_num
  have h2 : buildRecInfo "st/r" [⟨"c.mcap", [⟨"/t", "T", some 5000000000⟩], "m3", 10⟩] 0
      = some ⟨"r", some 5, some 5, some 0, "st/r", 10, 0,
          [⟨"c.mcap", 5, 5, 0, "m3", 10⟩],
          [⟨"/t", some "T", some 5, some 5, some 0, 1, some 0⟩]⟩ := by
    simp [buildRecInfo, recStep, topicStep, get_mcap_info, chanStep, chanFinalize,
      msgTimestamp, alistGetD, alistGet, alistSet, alistContains, emptyChan, initAcc,
      finalizeAcc, mergeLower, mergeUpper, basename, List.mapM, List.mapM.loop,
      List.min?, List.max?]
    norm_num
  refine ⟨⟨h1, C9_frequency_sentinels.1 [⟨"/t", "T", some 5000000000⟩] "/t" _ h1⟩,
          h2, ?_⟩
  exact C9_frequency_sentinels.2 "st/r" [⟨"c.mcap", [⟨"/t", "T", some 5000000000⟩], "m3", 10⟩]
    0 _ h2 ⟨"/t", some "T", some 5, some 5, some 0, 1, some 0⟩ (by
      rw [show (⟨"r", some 5, some 5, some 0, "st/r", 10, 0,
          [⟨"c.mcap", 5, 5, 0, "m3", 10⟩],
          [⟨"/t", some "T", some 5, some 5, some 0, 1, some 0⟩]⟩ : RecInfo).topics
        = [⟨"/t", some "T", some 5, some 5, some 0, 1, some 0⟩] from rfl]
      exact List.mem_singleton.mpr rfl) 0 rfl

/-- C9 (counterexample): one topic with a single message (zero duration):
the per-file path (`get_mcap_info`) records `frequency = None`, the merged
recording-level path records `frequency = 0` — two different sentinels, not
one consistently chosen value. -/
theorem C9_counterexample_two_sentinels :
    alistGet (get_mcap_info [⟨"/t", "T", some 5000000000⟩]) "/t"
        = some ⟨1, some "T", some 5, some 5, none⟩
      ∧ ((buildRecInfo "st/r" [⟨"c.mcap", [⟨"/t", "T", some 5000000000⟩], "m3", 10⟩] 0).map
          (fun r => r.topics))
        = some [⟨"/t", some "T", some 5, some 5, some 0, 1, some 0⟩]
      ∧ (none : Option ℚ) ≠ some 0 := by
  refine ⟨?_, ?_, by decide⟩
  · simp [get_mcap_info, chanStep, chanFinalize, msgTimestamp, alistGetD, alistGet,
      alistSet, emptyChan, alistContains]
    norm_num
  · simp [buildRecInfo, recStep, topicStep, get_mcap_info, chanStep, chanFinalize,
      msgTimestamp, alistGetD, alistGet, alistSet, alistContains, emptyChan, initAcc,
      finalizeAcc, mergeLower, mergeUpper, basename, List.mapM, List.mapM.loop,
      List.min?, List.max?]
    norm_num

/-! ### Claim C1 — the sort invariant after ingest -/

/-- All sort keys of the fetched records are numbers, or all are strings:
the fragment on which Python's `sorted` succeeds (and on which `pyLeB` is
faithful to Python comparison).  A mixed fetch makes `sorted` raise
`TypeError`, so the ingest is not successful there. -/
def keysComparable (sort_by : String) (db : List Dict) : Bool :=
  db.all (fun d => (pyKey sort_by d).rank == 1)
    || db.all (fun d => (pyKey sort_by d).rank == 2)

/-- C1: whenever `add_recording` reaches the resort (the pre-sort fetch
`pre` is defined) and the sort keys are comparable, the call succeeds and a
subsequent `GetAll` returns the whole catalog in non-decreasing `sortKey`
order (missing keys reading as the empty string); records with equal
`sortKey` keep the relative order they had in the pre-sort fetch. -/
theorem C1_ingest_sort_invariant (db : List Dict) (recording_path : String)
    (files : List FileData) (persisted : Option Dict) (ue : Bool) (now : ℚ) (ov : Bool)
    (sort_by : String) (pre : List Dict)
    (hpre : add_recording_presort db recording_path files persisted ue now ov = some pre)
    (_hcomp : keysComparable sort_by pre = true) :
    ∃ db' f', add_recording db recording_path files persisted ue now ov sort_by
        = some (db', f')
      ∧ TinyDBBackend.get_all_records db' = pySortDb sort_by pre
      ∧ (TinyDBBackend.get_all_records db').Pairwise
          (fun a b => recLeB sort_by a b = true)
      ∧ (TinyDBBackend.get_all_records db').Perm pre
      ∧ ∀ v : Val,
          (TinyDBBackend.get_all_records db').filter (fun d => pyKey sort_by d == v)
            = pre.filter (fun d => pyKey sort_by d == v) := by
  rcases add_recording_eq_sort_presort sort_by hpre with ⟨f', heq⟩
  exact ⟨pySortDb sort_by pre, f', heq, rfl, pySortDb_sorted sort_by pre,
    pySortDb_perm sort_by pre, fun v => pySortDb_filter_key sort_by pre v⟩

/-- C1 (witness): ingesting recording `a` (via its metadata file) into a
catalog already holding recording `b`; both carry string `start_time` keys,
and the resort invariant is instantiated through the theorem. -/
theorem C1_ingest_sort_invariant_witness :
    add_recording_presort [[("name", Val.str "b"), ("start_time", Val.str "2024")]]
        "st/a" [] (some [("name", Val.str "a"), ("path", Val.str "st/a"),
          ("start_time", Val.str "2023")]) true 7 true
      = some [[("name", Val.str "b"), ("start_time", Val.str "2024")],
              [("name", Val.str "a"), ("path", Val.str "st/a"),
               ("start_time", Val.str "2023"), ("time_added", Val.num 7)]]
    ∧ keysComparable "start_time"
        [[("name", Val.str "b"), ("start_time", Val.str "2024")],
         [("name", Val.str "a"), ("path", Val.str "st/a"),
          ("start_time", Val.str "2023"), ("time_added", Val.num 7)]] = true
    ∧ ∃ db' f',
        add_recording [[("name", Val.str "b"), ("start_time", Val.str "2024")]] "st/a" []
            (some [("name", Val.str "a"), ("path", Val.str "st/a"),
              ("start_time", Val.str "2023")]) true 7 true "start_time"
          = some (db', f')
        ∧ TinyDBBackend.get_all_records db'
            = pySortDb "start_time"
                [[("name", Val.str "b"), ("start_time", Val.str "2024")],
                 [("name", Val.str "a"), ("path", Val.str "st/a"),
                  ("start_time", Val.str "2023"), ("time_added", Val.num 7)]]
        ∧ (TinyDBBackend.get_all_records db').Pairwise
            (fun a b => recLeB "start_time" a b = true)
        ∧ (TinyDBBackend.get_all_records db').Perm
            [[("name", Val.str "b"), ("start_time", Val.str "2024")],
             [("name", Val.str "a"), ("path", Val.str "st/a"),
              ("start_time", Val.str "2023"), ("time_added", Val.num 7)]]
        ∧ ∀ v : Val,
            (TinyDBBackend.get_all_records db').filter
                (fun d => pyKey "start_time" d == v)
              = List.filter (fun d => pyKey "start_time" d == v)
                  [[("name", Val.str "b"), ("start_time", Val.str "2024")],
                   [("name", Val.str "a"), ("path", Val.str "st/a"),
                    ("start_time", Val.str "2023"), ("time_added", Val.num 7)]] :=
  ⟨by decide, by decide,
   C1_ingest_sort_invariant [[("name", Val.str "b"), ("start_time", Val.str "2024")]]
     "st/a" [] (some [("name", Val.str "a"), ("path", Val.str "st/a"),
       ("start_time", Val.str "2023")]) true 7 true "start_time" _ (by decide) (by decide)⟩

/-! ### Claim C2 — supporting lemmas -/

theorem alistContains_iff_mem_keys {α : Type} (l : List (String × α)) (k : String) :
    alistContains l k = true ↔ k ∈ alistKeys l := by
  induction l with
  | nil => simp [alistContains_nil, alistKeys]
  | cons p l ih =>
    rw [alistContains_cons, alistKeys, List.map_cons]
    by_cases hp : p.1 = k
    · simp [hp]
    · simp only [show (p.1 == k) = false from by simpa using hp, Bool.false_or,
        List.mem_cons]
      rw [ih]
      constructor
      · exact fun h => Or.inr (by rwa [alistKeys] at h)
      · rintro (h | h)
        · exact absurd h.symm hp
        · rwa [alistKeys]

theorem alistSet_keys_nodup {α : Type} {l : List (String × α)} {k : String} {v : α}
    (h : (alistKeys l).Nodup) : (alistKeys (alistSet l k v)).Nodup := by
  rcases hc : alistContains l k with _ | _
  · rw [alistSet_of_not_contains v hc, alistKeys, List.map_append, List.map_cons,
      List.map_nil]
    rw [List.nodup_append]
    refine ⟨h, List.nodup_singleton k, ?_⟩
    intro a ha hb
    rcases List.mem_singleton.mp hb with rfl
    have hmem : alistContains l a = true := (alistContains_iff_mem_keys l a).mpr ha
    rw [hc] at hmem
    cases hmem
  · rw [alistSet_of_contains v hc]
    have : alistKeys (l.map (fun p => if p.1 == k then (k, v) else p)) = alistKeys l := by
      rw [alistKeys, alistKeys, List.map_map]
      apply List.map_congr_left
      intro p _
      by_cases hp : p.1 = k
      · simp [hp]
      · simp [hp]
    rwa [this]

theorem alistUpdate_keys_nodup {α : Type} {d : List (String × α)}
    (e : List (String × α)) (h : (alistKeys d).Nodup) :
    (alistKeys (alistUpdate d e)).Nodup := by
  induction e generalizing d with
  | nil => exact h
  | cons p e ih =>
    rw [alistUpdate_cons]
    exact ih (alistSet_keys_nodup h)

theorem contains_eq_false_of_countP_zero {db : List Dict} {column : String} {v : Val}
    (h : db.countP (recMatches column v) = 0) :
    TinyDBBackend.contains_record db column v = false := by
  rcases ha : db.any (recMatches column v) with _ | _
  · exact ha
  · rcases List.any_eq_true.mp ha with ⟨d, hd, hpd⟩
    exact absurd hpd (List.countP_eq_zero.mp h d hd)

theorem contains_eq_true_of_countP_one {db : List Dict} {column : String} {v : Val}
    (h : db.countP (recMatches column v) = 1) :
    TinyDBBackend.contains_record db column v = true := by
  have hpos : 0 < db.countP (recMatches column v) := by omega
  rcases List.countP_pos_iff.mp hpos with ⟨d, hd, hpd⟩
  exact List.any_eq_true.mpr ⟨d, hd, hpd⟩

/-- Characterization of a successful `recStep`: the accumulator keeps
`name`, `path`, `duration`, `size` and `time_modified`, and only the file
dictionary, the overall time range and the topic dictionary change. -/
theorem recStep_shape {acc : RecAcc} {f : FileData} {acc' : RecAcc}
    (h : recStep acc f = some acc') :
    ∃ fileStart fileEnd topics',
      (get_mcap_info f.msgs).foldlM topicStep acc.topics = some topics'
        ∧ acc' = { acc with
            files := alistSet acc.files f.path
              { path := f.path, start_time := fileStart, end_time := fileEnd,
                duration := fileEnd - fileStart, md5sum := f.md5sum, size := f.size }
            start_time :=
              match acc.start_time with
              | none => some fileStart
              | some s => if fileStart < s then some fileStart else some s
            end_time :=
              match acc.end_time with
              | none => some fileEnd
              | some e => if fileEnd > e then some fileEnd else some e
            topics := topics' } := by
  rw [recStep] at h
  rcases h1 : (List.map (fun p : String × ChanInfo => p.2.start_time)
      (get_mcap_info f.msgs)).mapM id with _ | starts
  · simp only [h1] at h
    cases h
  · simp only [h1] at h
    rcases h2 : starts.min? with _ | fileStart
    · simp only [h2] at h
      cases h
    · simp only [h2] at h
      rcases h3 : (List.map (fun p : String × ChanInfo => p.2.end_time)
          (get_mcap_info f.msgs)).mapM id with _ | ends
      · simp only [h3] at h
        cases h
      · simp only [h3] at h
        rcases h4 : ends.max? with _ | fileEnd
        · simp only [h4] at h
          cases h
        · simp only [h4] at h
          rcases h5 : (get_mcap_info f.msgs).foldlM topicStep acc.topics with _ | topics'
          · simp only [h5] at h
            cases h
          · simp only [h5] at h
            exact ⟨fileStart, fileEnd, topics', rfl, (Option.some.inj h).symm⟩

theorem recFold_const :
    ∀ (files : List FileData) (acc acc' : RecAcc),
      files.foldlM recStep acc = some acc' →
      acc'.name = acc.name ∧ acc'.path = acc.path
        ∧ acc'.time_modified = acc.time_modified := by
  intro files
  induction files with
  | nil =>
    intro acc acc' h
    cases h
    exact ⟨rfl, rfl, rfl⟩
  | cons f fs ih =>
    intro acc acc' h
    rw [List.foldlM_cons] at h
    rcases Option.bind_eq_some.mp h with ⟨a1, h1, h2⟩
    rcases recStep_shape h1 with ⟨fileStart, fileEnd, topics', _, hshape⟩
    rcases ih a1 acc' h2 with ⟨hn, hp, ht⟩
    rw [hshape] at hn hp ht
    exact ⟨hn, hp, ht⟩

/-- `recStep` never reads or writes `time_modified`: shifting the clock field
of the accumulator commutes with the step. -/
theorem recStep_time_shift (acc : RecAcc) (f : FileData) (t : ℚ) :
    recStep { acc with time_modified := t } f
      = (recStep acc f).map (fun a => { a with time_modified := t }) := by
  rw [recStep, recStep]
  rcases h1 : (List.map (fun p : String × ChanInfo => p.2.start_time)
      (get_mcap_info f.msgs)).mapM id with _ | starts <;> simp only [h1]
  · rfl
  rcases h2 : starts.min? with _ | fileStart <;> simp only [h2]
  · rfl
  rcases h3 : (List.map (fun p : String × ChanInfo => p.2.end_time)
      (get_mcap_info f.msgs)).mapM id with _ | ends <;> simp only [h3]
  · rfl
  rcases h4 : ends.max? with _ | fileEnd <;> simp only [h4]
  · rfl
  rcases h5 : (get_mcap_info f.msgs).foldlM topicStep acc.topics with _ | topics' <;>
    simp only [h5]
  · rfl
  · rfl

theorem recFold_time_shift :
    ∀ (files : List FileData) (acc : RecAcc) (t : ℚ),
      files.foldlM recStep { acc with time_modified := t }
        = (files.foldlM recStep acc).map (fun a => { a with time_modified := t }) := by
  intro files
  induction files with
  | nil => intro acc t; rfl
  | cons f fs ih =>
    intro acc t
    rw [List.foldlM_cons, List.foldlM_cons, recStep_time_shift]
    rcases h : recStep acc f with _ | a1
    · rfl
    · show fs.foldlM recStep { a1 with time_modified := t } = _
      rw [ih a1 t]
      rfl

theorem finalizeAcc_time_shift (acc : RecAcc) (t : ℚ) :
    finalizeAcc { acc with time_modified := t }
      = { finalizeAcc acc with time_modified := t } := by
  rcases acc with ⟨n, st, en, du, pa, sz, tm, fi, tp⟩
  rw [finalizeAcc, finalizeAcc]
  rcases st with _ | s <;> rcases en with _ | e <;> rfl

/-- Re-running the aggregation over the same files with a later clock yields
the same recording record apart from a refreshed `time_modified`. -/
theorem buildRecInfo_time_shift {recording_path : String} {files : List FileData}
    {now1 : ℚ} {r : RecInfo} (now2 : ℚ)
    (h : buildRecInfo recording_path files now1 = some r) :
    buildRecInfo recording_path files now2 = some { r with time_modified := now2 } := by
  rw [buildRecInfo] at h ⊢
  have hinit : initAcc recording_path now2
      = { initAcc recording_path now1 with time_modified := now2 } := rfl
  rw [hinit, recFold_time_shift]
  rcases Option.map_eq_some'.mp h with ⟨accF, hfold, hfin⟩
  rw [hfold]
  show some (finalizeAcc { accF with time_modified := now2 }) = _
  rw [finalizeAcc_time_shift, hfin]

theorem buildRecInfo_const {recording_path : String} {files : List FileData} {now : ℚ}
    {r : RecInfo} (h : buildRecInfo recording_path files now = some r) :
    r.name = basename recording_path ∧ r.path = recording_path
      ∧ r.time_modified = now := by
  rw [buildRecInfo] at h
  rcases Option.map_eq_some'.mp h with ⟨accF, hfold, hfin⟩
  rcases recFold_const files _ accF hfold with ⟨hn, hp, ht⟩
  have hfa : ∀ a : RecAcc, (finalizeAcc a).name = a.name ∧ (finalizeAcc a).path = a.path
      ∧ (finalizeAcc a).time_modified = a.time_modified := by
    intro a
    rw [finalizeAcc]
    rcases a.start_time with _ | s <;> rcases a.end_time with _ | e <;>
      exact ⟨rfl, rfl, rfl⟩
  rcases hfa accF with ⟨h1, h2, h3⟩
  rw [← hfin]
  exact ⟨h1.trans hn, h2.trans hp, h3.trans ht⟩

theorem toDict_get_name (r : RecInfo) :
    alistGet (RecInfo.toDict r) "name" = some (Val.str r.name) := rfl

theorem toDict_get_path (r : RecInfo) :
    alistGet (RecInfo.toDict r) "path" = some (Val.str r.path) := rfl

theorem toDict_get_time_modified (r : RecInfo) :
    alistGet (RecInfo.toDict r) "time_modified" = some (Val.num r.time_modified) := rfl

theorem toDict_not_contains_time_added (r : RecInfo) :
    alistContains (RecInfo.toDict r) "time_added" = false := rfl

/-- Only the `time_modified` entry of the record dictionary depends on the
clock field. -/
theorem toDict_time_shift_get (r : RecInfo) (t : ℚ) {k : String}
    (hk : k ≠ "time_modified") :
    alistGet (RecInfo.toDict { r with time_modified := t }) k
      = alistGet (RecInfo.toDict r) k := by
  rw [RecInfo.toDict, RecInfo.toDict]
  by_cases h1 : k = "name"
  · rw [h1]; rfl
  by_cases h2 : k = "start_time"
  · rw [h2]; rfl
  by_cases h3 : k = "end_time"
  · rw [h3]; rfl
  by_cases h4 : k = "duration"
  · rw [h4]; rfl
  by_cases h5 : k = "path"
  · rw [h5]; rfl
  by_cases h6 : k = "size"
  · rw [h6]; rfl
  by_cases h7 : k = "files"
  · rw [h7]; rfl
  by_cases h8 : k = "topics"
  · rw [h8]; rfl
  repeat rw [alistGet_cons_ne (by simpa using fun h => (by simp_all : False))]

theorem fixPath_id {md : Dict} {recording_path : String}
    (h : alistGet md "path" = some (Val.str recording_path)) :
    fixPath md recording_path = md := by
  rw [fixPath, if_pos (alistContains_of_get_eq_some h), if_pos h]

/-- C2 (amended): calling `add_recording` (override on, metadata regenerated)
twice in a row on the same recording with unchanged files, starting from a
catalog without that name, leaves exactly one catalog record for the name;
`time_added` stamped by the first call is preserved by the second, and all
other fields coincide except `time_modified`, which is refreshed to the
second call's aggregation time. -/
theorem C2_ingest_add_idempotent (db0 : List Dict) (recording_path : String)
    (files : List FileData) (c1 : Dict) (now1 now2 : ℚ) (sort_by : String)
    (hc1 : get_rec_info recording_path files now1 = some c1)
    (hne : files ≠ [])
    (h0 : db0.countP (recMatches "name" (Val.str (basename recording_path))) = 0) :
    ∃ c2 db1 db2 r1 r2,
      get_rec_info recording_path files now2 = some c2
      ∧ add_recording db0 recording_path files none false now1 true sort_by
          = some (db1, c1)
      ∧ add_recording db1 recording_path files (some c1) false now2 true sort_by
          = some (db2, alistUpdate c1 c2)
      ∧ db1.countP (recMatches "name" (Val.str (basename recording_path))) = 1
      ∧ db2.countP (recMatches "name" (Val.str (basename recording_path))) = 1
      ∧ TinyDBBackend.get_record db1 "name" (Val.str (basename recording_path)) = some r1
      ∧ TinyDBBackend.get_record db2 "name" (Val.str (basename recording_path)) = some r2
      ∧ alistGet r1 "time_added" = some (Val.num now1)
      ∧ alistGet r2 "time_added" = some (Val.num now1)
      ∧ (∀ k : String, k ≠ "time_modified" → alistGet r2 k = alistGet r1 k)
      ∧ alistGet r2 "time_modified" = some (Val.num now2) := by
  have hne' : files.isEmpty = false := by
    rcases files with _ | ⟨f, fs⟩
    · exact absurd rfl hne
    · rfl
  have hcbuild := hc1
  rw [get_rec_info, hne'] at hcbuild
  simp only [Bool.false_eq_true, if_false] at hcbuild
  rcases Option.map_eq_some'.mp hcbuild with ⟨rb, hb1, hcd⟩
  rcases buildRecInfo_const hb1 with ⟨hbn, hbp, _⟩
  set nv : Val := Val.str (basename recording_path) with hnv
  -- the second aggregation
  have hb2 : buildRecInfo recording_path (sortFiles files) now2
      = some { rb with time_modified := now2 } := buildRecInfo_time_shift now2 hb1
  set c2 : Dict := RecInfo.toDict { rb with time_modified := now2 } with hc2def
  have hc2 : get_rec_info recording_path files now2 = some c2 := by
    rw [get_rec_info, hne']
    simp only [Bool.false_eq_true, if_false]
    rw [hb2]
    rfl
  -- key facts about the computed dictionaries
  have hname1 : alistGet c1 "name" = some nv := by
    rw [← hcd, toDict_get_name, hbn]
  have hpath1 : alistGet c1 "path" = some (Val.str recording_path) := by
    rw [← hcd, toDict_get_path, hbp]
  have hnodup1 : (alistKeys c1).Nodup := by
    rw [← hcd]; exact toDict_keys_nodup rb
  have hnodup2 : (alistKeys c2).Nodup := toDict_keys_nodup _
  have hc1ta : alistContains c1 "time_added" = false := by
    rw [← hcd]; exact toDict_not_contains_time_added rb
  have hc2ta : alistContains c2 "time_added" = false :=
    toDict_not_contains_time_added _
  have hc2name : alistContains c2 "name" = true := rfl
  have hc2path : alistContains c2 "path" = true := rfl
  have hc2tm : alistContains c2 "time_modified" = true := rfl
  have hc1name : alistContains c1 "name" = true := alistContains_of_get_eq_some hname1
  have hc1tm : alistContains c1 "time_modified" = true := by
    rw [← hcd]; rfl
  -- the first call
  have hcont0 : TinyDBBackend.contains_record db0 "name" nv = false :=
    contains_eq_false_of_countP_zero h0
  set r1' : Dict := alistSet c1 "time_added" (Val.num now1) with hr1def
  have hres1 : resolve_metadata recording_path files none false now1 = some c1 := by
    rw [resolve_metadata]
    simp only [Bool.false_and, Option.isSome_none, Bool.false_eq_true, if_false]
    rw [hc1]
    rfl
  have hfix1 : fixPath c1 recording_path = c1 := fixPath_id hpath1
  have hta1 : ingestTimeAdded db0 nv now1 = Val.num now1 := by
    rw [ingestTimeAdded, hcont0]
    rfl
  have hup1 : TinyDBBackend.upsert_record db0 r1' "name" nv = db0 ++ [r1'] :=
    tiny_upsert_of_not_contains r1' hcont0
  set db1 : List Dict := pySortDb sort_by (db0 ++ [r1']) with hdb1def
  have hcall1 : add_recording db0 recording_path files none false now1 true sort_by
      = some (db1, c1) := by
    rw [add_recording, hres1]
    simp only [hfix1, hname1, hcont0, Bool.false_and, Bool.false_eq_true, if_false,
      hta1, ← hr1def, hup1]
    rw [hdb1def]
    rfl
  -- facts about the catalog after the first call
  have hr1name : alistGet r1' "name" = some nv := by
    rw [hr1def, alistGet_set_ne _ _ _ _ (by decide)]
    exact hname1
  have hr1m : recMatches "name" nv r1' = true := by
    rw [recMatches, hr1name]
    simp
  have hcount1 : db1.countP (recMatches "name" nv) = 1 := by
    rw [(pySortDb_perm sort_by (db0 ++ [r1'])).countP_eq]
    rw [List.countP_append, h0]
    simp [List.countP_cons, hr1m]
  have hmem1 : r1' ∈ db1 :=
    ((pySortDb_perm sort_by (db0 ++ [r1'])).mem_iff).mpr (by simp)
  have hget1 : TinyDBBackend.get_record db1 "name" nv = some r1' :=
    find?_eq_some_of_unique hmem1 hr1m hcount1
  have htar1 : alistGet r1' "time_added" = some (Val.num now1) := by
    rw [hr1def]
    exact alistGet_set_self c1 "time_added" (Val.num now1)
  -- the second call
  set md2 : Dict := alistUpdate c1 c2 with hmd2def
  have hres2 : resolve_metadata recording_path files (some c1) false now2 = some md2 := by
    rw [resolve_metadata]
    simp only [Bool.false_and, Bool.false_eq_true, if_false]
    rw [hc2]
    rfl
  have hmd2path : alistGet md2 "path" = some (Val.str recording_path) := by
    rw [hmd2def, alistUpdate_get_of_contains_nodup hnodup2 hc2path, hc2def,
      toDict_get_path]
    rw [show RecInfo.path { rb with time_modified := now2 } = rb.path from rfl, hbp]
  have hmd2name : alistGet md2 "name" = some nv := by
    rw [hmd2def, alistUpdate_get_of_contains_nodup hnodup2 hc2name, hc2def,
      toDict_get_name]
    rw [show RecInfo.name { rb with time_modified := now2 } = rb.name from rfl, hbn]
  have hfix2 : fixPath md2 recording_path = md2 := fixPath_id hmd2path
  have hcont1 : TinyDBBackend.contains_record db1 "name" nv = true :=
    contains_eq_true_of_countP_one hcount1
  have hta2 : ingestTimeAdded db1 nv now2 = Val.num now1 := by
    rw [ingestTimeAdded, hcont1, if_pos rfl, hget1]
    show (match alistGet r1' "time_added" with
      | some ta => ta
      | none => Val.num now2) = Val.num now1
    rw [htar1]
  set md2v : Dict := alistSet md2 "time_added" (Val.num now1) with hmd2vdef
  have hup2 : TinyDBBackend.upsert_record db1 md2v "name" nv
      = db1.map (fun d => if recMatches "name" nv d then alistUpdate d md2v else d) :=
    tiny_upsert_of_contains md2v hcont1
  set db2 : List Dict := pySortDb sort_by
    (db1.map (fun d => if recMatches "name" nv d then alistUpdate d md2v else d))
    with hdb2def
  have hcall2 : add_recording db1 recording_path files (some c1) false now2 true sort_by
      = some (db2, md2) := by
    rw [add_recording, hres2]
    simp only [hfix2, hmd2name, hcont1, Bool.and_false, Bool.not_true,
      Bool.false_eq_true, if_false, hta2, ← hmd2vdef, hup2]
    rw [hdb2def]
    rfl
  -- key-structure facts about the supplied record of the second upsert
  have hnodupmd2 : (alistKeys md2).Nodup := alistUpdate_keys_nodup c2 hnodup1
  have hnodupmd2v : (alistKeys md2v).Nodup := alistSet_keys_nodup hnodupmd2
  have hmd2ta : alistContains md2 "time_added" = false := by
    rw [hmd2def, alistContains_update, hc1ta, hc2ta]
    rfl
  have hcmd2vname : alistContains md2v "name" = true := by
    rw [hmd2vdef, alistContains_set, hmd2def, alistContains_update, hc1name]
    rfl
  have hcmd2vta : alistContains md2v "time_added" = true := by
    rw [hmd2vdef, alistContains_set]
    simp
  have hmd2vname : alistGet md2v "name" = some nv := by
    rw [hmd2vdef, alistGet_set_ne _ _ _ _ (by decide)]
    exact hmd2name
  have hmd2vta : alistGet md2v "time_added" = some (Val.num now1) := by
    rw [hmd2vdef]
    exact alistGet_set_self md2 "time_added" (Val.num now1)
  -- each record of the mapped catalog keeps its match status
  have hfnmatch : ∀ d : Dict,
      recMatches "name" nv (if recMatches "name" nv d then alistUpdate d md2v else d)
        = recMatches "name" nv d := by
    intro d
    by_cases hm : recMatches "name" nv d = true
    · rw [if_pos hm, hm, recMatches,
        alistUpdate_get_of_contains_nodup hnodupmd2v hcmd2vname, hmd2vname]
      simp
    · rw [if_neg hm]
  set r2 : Dict := alistUpdate r1' md2v with hr2def
  have hcount2 : db2.countP (recMatches "name" nv) = 1 := by
    rw [(pySortDb_perm sort_by _).countP_eq, List.countP_map]
    rw [List.countP_congr (fun d _ => by rw [Function.comp_apply, hfnmatch d])]
    exact hcount1
  have hr2m : recMatches "name" nv r2 = true := by
    rw [hr2def, recMatches, alistUpdate_get_of_contains_nodup hnodupmd2v hcmd2vname,
      hmd2vname]
    simp
  have hmem2 : r2 ∈ db2 := by
    rw [hdb2def]
    refine ((pySortDb_perm sort_by _).mem_iff).mpr (List.mem_map.mpr ⟨r1', hmem1, ?_⟩)
    show (if recMatches "name" nv r1' = true then alistUpdate r1' md2v else r1') = r2
    rw [if_pos hr1m, hr2def]
  have hget2 : TinyDBBackend.get_record db2 "name" nv = some r2 :=
    find?_eq_some_of_unique hmem2 hr2m hcount2
  -- field facts about the surviving record
  have hr2ta : alistGet r2 "time_added" = some (Val.num now1) := by
    rw [hr2def, alistUpdate_get_of_contains_nodup hnodupmd2v hcmd2vta, hmd2vta]
  have hr2tm : alistGet r2 "time_modified" = some (Val.num now2) := by
    have hcmd2vtm : alistContains md2v "time_modified" = true := by
      rw [hmd2vdef, alistContains_set, hmd2def, alistContains_update, hc1tm]
      rfl
    rw [hr2def, alistUpdate_get_of_contains_nodup hnodupmd2v hcmd2vtm,
      hmd2vdef, alistGet_set_ne _ _ _ _ (by decide), hmd2def,
      alistUpdate_get_of_contains_nodup hnodup2 hc2tm, hc2def, toDict_get_time_modified]
  have hagree : ∀ k : String, k ≠ "time_modified" → alistGet r2 k = alistGet r1' k := by
    intro k hk
    by_cases hta : k = "time_added"
    · rw [hta, hr2ta, htar1]
    · have hr1k : alistGet r1' k = alistGet c1 k := by
        rw [hr1def, alistGet_set_ne _ _ _ _ hta]
      rcases hck : alistContains md2v k with _ | _
      · rw [hr2def, alistUpdate_get_of_not_contains hck]
      · rw [hr2def, alistUpdate_get_of_contains_nodup hnodupmd2v hck,
          hmd2vdef, alistGet_set_ne _ _ _ _ hta, hmd2def]
        rcases hc2k : alistContains c2 k with _ | _
        · rw [alistUpdate_get_of_not_contains hc2k, hr1k]
        · rw [alistUpdate_get_of_contains_nodup hnodup2 hc2k, hr1k, hc2def,
            toDict_time_shift_get rb now2 hk, hcd]
  exact ⟨c2, db1, db2, r1', r2, hc2, hcall1, hmd2def ▸ hcall2, hcount1, hcount2,
    hget1, hget2, htar1, hr2ta, hagree, hr2tm⟩

/-- A one-file recording used to exercise the double-ingest scenario. -/
def exFile : FileData := ⟨"c.mcap", [⟨"/t", "T", some 5000000000⟩], "m3", 10⟩

/-- The recording dictionary aggregated from `exFile` at clock 0. -/
def exC1 : Dict :=
  [("name", Val.str "r"), ("start_time", Val.num 5), ("end_time", Val.num 5),
   ("duration", Val.num 0), ("path", Val.str "st/r"), ("size", Val.num 10),
   ("time_modified", Val.num 0),
   ("files", Val.vfiles [⟨"c.mcap", 5, 5, 0, "m3", 10⟩]),
   ("topics", Val.vtopics [⟨"/t", some "T", some 5, some 5, some 0, 1, some 0⟩])]

/-- The recording dictionary aggregated from `exFile` at clock 1. -/
def exC2 : Dict :=
  [("name", Val.str "r"), ("start_time", Val.num 5), ("end_time", Val.num 5),
   ("duration", Val.num 0), ("path", Val.str "st/r"), ("size", Val.num 10),
   ("time_modified", Val.num 1),
   ("files", Val.vfiles [⟨"c.mcap", 5, 5, 0, "m3", 10⟩]),
   ("topics", Val.vtopics [⟨"/t", some "T", some 5, some 5, some 0, 1, some 0⟩])]

/-- The catalog record after the first ingest of `exFile`. -/
def exR1 : Dict := exC1 ++ [("time_added", Val.num 0)]

/-- The catalog record after the second ingest of `exFile`. -/
def exR2 : Dict := exC2 ++ [("time_added", Val.num 0)]

set_option maxHeartbeats 4000000 in
/-- C2 (counterexample): ingesting the same unchanged recording twice
(`add_recording`, override on, metadata regenerated) leaves one catalog
record whose `time_added` is preserved from the first call, but whose field
values are NOT identical to the first call's record: `time_modified` is
refreshed by the second aggregation. -/
theorem C2_counterexample_time_modified_refreshed :
    add_recording [] "st/r" [exFile] none false 0 true "start_time"
        = some ([exR1], exC1)
      ∧ add_recording [exR1] "st/r" [exFile] (some exC1) false 1 true "start_time"
        = some ([exR2], exC2)
      ∧ alistGet exR2 "time_added" = alistGet exR1 "time_added"
      ∧ alistGet exR2 "time_modified" ≠ alistGet exR1 "time_modified" := by
  refine ⟨?_, ?_, by decide, by decide⟩
  · simp [add_recording, resolve_metadata, get_rec_info, sortFiles, buildRecInfo,
      recStep, topicStep, get_mcap_info, chanStep, chanFinalize, msgTimestamp,
      RecInfo.toDict, generate_metadata, alistUpdate, alistSet, alistGet, alistGetD,
      alistContains, fixPath, ingestTimeAdded, TinyDBBackend.contains_record,
      TinyDBBackend.get_record, TinyDBBackend.upsert_record,
      TinyDBBackend.get_all_records, TinyDBBackend.truncate_database,
      TinyDBBackend.insert_multiple_records, pySortDb, List.mergeSort_singleton,
      recMatches, basename, initAcc, finalizeAcc, mergeLower, mergeUpper,
      List.mapM, List.mapM.loop, List.min?, List.max?, emptyChan, exFile, exC1, exR1]
    norm_num
  · simp [add_recording, resolve_metadata, get_rec_info, sortFiles, buildRecInfo,
      recStep, topicStep, get_mcap_info, chanStep, chanFinalize, msgTimestamp,
      RecInfo.toDict, generate_metadata, alistUpdate, alistSet, alistGet, alistGetD,
      alistContains, fixPath, ingestTimeAdded, TinyDBBackend.contains_record,
      TinyDBBackend.get_record, TinyDBBackend.upsert_record,
      TinyDBBackend.get_all_records, TinyDBBackend.truncate_database,
      TinyDBBackend.insert_multiple_records, pySortDb, List.mergeSort_singleton,
      recMatches, basename, initAcc, finalizeAcc, mergeLower, mergeUpper,
      List.mapM, List.mapM.loop, List.min?, List.max?, emptyChan, updGet,
      exFile, exC1, exC2, exR1, exR2]
    norm_num

set_option maxHeartbeats 4000000 in
/-- C2 (witness): the amended theorem instantiated on the concrete
`exFile` scenario. -/
theorem C2_ingest_add_idempotent_witness :
    get_rec_info "st/r" [exFile] 0 = some exC1
      ∧ [exFile] ≠ []
      ∧ ([] : List Dict).countP (recMatches "name" (Val.str (basename "st/r"))) = 0
      ∧ ∃ c2 db1 db2 r1 r2,
          get_rec_info "st/r" [exFile] 1 = some c2
          ∧ add_recording [] "st/r" [exFile] none false 0 true "start_time"
              = some (db1, exC1)
          ∧ add_recording db1 "st/r" [exFile] (some exC1) false 1 true "start_time"
              = some (db2, alistUpdate exC1 c2)
          ∧ db1.countP (recMatches "name" (Val.str (basename "st/r"))) = 1
          ∧ db2.countP (recMatches "name" (Val.str (basename "st/r"))) = 1
          ∧ TinyDBBackend.get_record db1 "name" (Val.str (basename "st/r")) = some r1
          ∧ TinyDBBackend.get_record db2 "name" (Val.str (basename "st/r")) = some r2
          ∧ alistGet r1 "time_added" = some (Val.num 0)
          ∧ alistGet r2 "time_added" = some (Val.num 0)
          ∧ (∀ k : String, k ≠ "time_modified" → alistGet r2 k = alistGet r1 k)
          ∧ alistGet r2 "time_modified" = some (Val.num 1) := by
  have hc1 : get_rec_info "st/r" [exFile] 0 = some exC1 := by
    simp [get_rec_info, sortFiles, buildRecInfo, recStep, topicStep, get_mcap_info,
      chanStep, chanFinalize, msgTimestamp, RecInfo.toDict, alistSet, alistGet,
      alistGetD, alistContains, basename, initAcc, finalizeAcc, mergeLower,
      mergeUpper, List.mapM, List.mapM.loop, List.min?, List.max?, emptyChan,
      List.mergeSort_singleton, exFile, exC1]
    norm_num
  exact ⟨hc1, by decide, rfl,
    C2_ingest_add_idempotent [] "st/r" [exFile] exC1 0 1 "start_time" hc1
      (by decide) rfl⟩

/-! ### Claim C4 — per-topic merge across files: supporting lemmas -/

theorem min?_append_singleton (xs : List ℚ) (a : ℚ) :
    (xs ++ [a]).min? = some (match xs.min? with | none => a | some m => min m a) := by
  rcases xs with _ | ⟨x, xs'⟩
  · rfl
  · show (x :: (xs' ++ [a])).min? = _
    rw [List.min?_cons', List.min?_cons', List.foldl_append]
    rfl

theorem max?_append_singleton (xs : List ℚ) (a : ℚ) :
    (xs ++ [a]).max? = some (match xs.max? with | none => a | some m => max m a) := by
  rcases xs with _ | ⟨x, xs'⟩
  · rfl
  · show (x :: (xs' ++ [a])).max? = _
    rw [List.max?_cons', List.max?_cons', List.foldl_append]
    rfl

theorem pyMin_eq_min (m s : ℚ) : (if s < m then s else m) = min m s := by
  rcases le_or_lt m s with h | h
  · rw [if_neg (not_lt_of_ge h), min_eq_left h]
  · rw [if_pos h, min_eq_right (le_of_lt h)]

theorem pyMax_eq_max (m s : ℚ) : (if s > m then s else m) = max m s := by
  rcases le_or_lt s m with h | h
  · rw [if_neg (not_lt_of_ge h), max_eq_left h]
  · rw [if_pos h, max_eq_right (le_of_lt h)]

/-- Every channel entry produced by `get_mcap_info` has its time range set
(every channel has seen at least one message). -/
theorem get_mcap_info_wf {msgs : List Msg} {T : String} {info : ChanInfo}
    (h : alistGet (get_mcap_info msgs) T = some info) :
    info.start_time.isSome = true ∧ info.end_time.isSome = true := by
  rw [get_mcap_info, alistGet_map_snd] at h
  rcases Option.map_eq_some'.mp h with ⟨ci, hci, hfin⟩
  have hwf : ∀ (l : List Msg) (init : List (String × ChanInfo)),
      (∀ T' ci', alistGet init T' = some ci' →
        ci'.start_time.isSome = true ∧ ci'.end_time.isSome = true) →
      ∀ T' ci', alistGet (l.foldl chanStep init) T' = some ci' →
        ci'.start_time.isSome = true ∧ ci'.end_time.isSome = true := by
    intro l
    induction l with
    | nil => exact fun init hi => hi
    | cons m l ih =>
      intro init hi
      rw [List.foldl_cons]
      refine ih (chanStep init m) ?_
      intro T' ci' hg
      rw [chanStep] at hg
      by_cases hT : T' = m.topic
      · rw [hT, alistGet_set_self] at hg
        rcases Option.some.inj hg with rfl
        constructor
        · rcases h0 : (alistGetD init m.topic emptyChan).start_time with _ | s0
          · simp [h0]
          · simp only [h0]
            split <;> rfl
        · rcases h0 : (alistGetD init m.topic emptyChan).end_time with _ | e0
          · simp [h0]
          · simp only [h0]
            split <;> rfl
      · rw [alistGet_set_ne _ _ _ _ hT] at hg
        exact hi T' ci' hg
  have := hwf msgs [] (by intro T' ci' hg; cases hg) T ci hci
  rw [← hfin]
  exact ⟨this.1, this.2⟩

/-- The channel dictionary of `get_mcap_info` has unique keys. -/
theorem get_mcap_info_keys_nodup (msgs : List Msg) :
    (alistKeys (get_mcap_info msgs)).Nodup := by
  have hkeys : ∀ {α β : Type} (f : α → β) (l : List (String × α)),
      alistKeys (l.map (fun p => (p.1, f p.2))) = alistKeys l := by
    intro α β f l
    rw [alistKeys, alistKeys, List.map_map]
    rfl
  rw [get_mcap_info, hkeys]
  have hfold : ∀ (l : List Msg) (init : List (String × ChanInfo)),
      (alistKeys init).Nodup → (alistKeys (l.foldl chanStep init)).Nodup := by
    intro l
    induction l with
    | nil => exact fun init hi => hi
    | cons m l ih =>
      intro init hi
      rw [List.foldl_cons]
      exact ih (chanStep init m) (alistSet_keys_nodup hi)
  exact hfold msgs [] (by rw [alistKeys]; exact List.nodup_nil)

/-- Effect of one topic-merge iteration: every other topic's entry is
untouched, and the processed topic's entry accumulates `count` and the
running min/max of the time range over the previous entry (absent entries
read as the fresh defaults). -/
theorem topicStep_self {tops : List (String × TopicEntry)} {T : String} {info : ChanInfo}
    {tops' : List (String × TopicEntry)} (h : topicStep tops (T, info) = some tops') :
    (∀ T', T' ≠ T → alistGet tops' T' = alistGet tops T')
      ∧ ∃ fin : TopicEntry,
          alistGet tops' T = some fin
            ∧ fin.name = T
            ∧ fin.count = ((alistGet tops T).elim 0 TopicEntry.count) + info.num_messages
            ∧ mergeLower ((alistGet tops T).elim (none : Option ℚ) TopicEntry.start_time)
                info.start_time = some fin.start_time
            ∧ mergeUpper ((alistGet tops T).elim (none : Option ℚ) TopicEntry.end_time)
                info.end_time = some fin.end_time
            ∧ fin.start_time.isSome = true ∧ fin.end_time.isSome = true := by
  rcases hget : alistGet tops T with _ | old
  · -- the topic is new: the loop creates a fresh entry, then fills it
    have hc : alistContains tops T = false := by
      rcases hc : alistContains tops T with _ | _
      · rfl
      · exact absurd ((alistContains_iff_get_isSome tops T).mp hc) (by rw [hget]; simp)
    simp only [topicStep, hc, Bool.false_eq_true, if_false, alistGet_set_self,
      mergeLower, mergeUpper] at h
    rcases hs : info.start_time with _ | s
    · rw [hs] at h
      cases h
    · rw [hs] at h
      rcases he : info.end_time with _ | e
      · rw [he] at h
        cases h
      · rw [he] at h
        have heq := Option.some.inj h
        constructor
        · intro T' hT'
          rw [← heq, alistGet_set_ne _ _ _ _ hT', alistGet_set_ne _ _ _ _ hT']
        · refine ⟨_, by rw [← heq, alistGet_set_self], rfl, ?_, ?_, ?_, ?_, ?_⟩
          · rfl
          · rfl
          · rfl
          · rfl
          · rfl
  · -- the topic already has an entry
    have hc : alistContains tops T = true := alistContains_of_get_eq_some hget
    simp only [topicStep, hc, if_true, hget] at h
    rcases hml : mergeLower old.start_time info.start_time with _ | ns
    · rw [hml] at h
      cases h
    · rw [hml] at h
      rcases hmu : mergeUpper old.end_time info.end_time with _ | ne
      · rw [hmu] at h
        cases h
      · rw [hmu] at h
        rcases hns : ns with _ | s
        · rw [hns] at h
          cases h
        · rw [hns] at h
          rcases hne : ne with _ | e
          · rw [hne] at h
            cases h
          · rw [hne] at h
            have heq := Option.some.inj h
            constructor
            · intro T' hT'
              rw [← heq, alistGet_set_ne _ _ _ _ hT']
            · refine ⟨_, by rw [← heq, alistGet_set_self], rfl, ?_, ?_, ?_, ?_, ?_⟩
              · rfl
              · show mergeLower old.start_time info.start_time = some (some s)
                rw [hml, hns]
              · show mergeUpper old.end_time info.end_time = some (some e)
                rw [hmu, hne]
              · rfl
              · rfl

/-- Effect of one file's whole topic-merge loop on a fixed topic `T`: no
change when the file does not carry `T`, and a single accumulation step when
it does. -/
theorem topicFold_get {T : String} :
    ∀ (mi : List (String × ChanInfo)) (tops tops' : List (String × TopicEntry)),
      mi.foldlM topicStep tops = some tops' → (alistKeys mi).Nodup →
      ((alistGet mi T = none → alistGet tops' T = alistGet tops T)
        ∧ ∀ info, alistGet mi T = some info →
            ∃ fin : TopicEntry,
              alistGet tops' T = some fin
                ∧ fin.name = T
                ∧ fin.count = ((alistGet tops T).elim 0 TopicEntry.count)
                    + info.num_messages
                ∧ mergeLower ((alistGet tops T).elim (none : Option ℚ)
                    TopicEntry.start_time) info.start_time = some fin.start_time
                ∧ mergeUpper ((alistGet tops T).elim (none : Option ℚ)
                    TopicEntry.end_time) info.end_time = some fin.end_time
                ∧ fin.start_time.isSome = true ∧ fin.end_time.isSome = true) := by
  intro mi
  induction mi with
  | nil =>
    intro tops tops' h _
    cases h
    exact ⟨fun _ => rfl, fun info hinfo => by cases hinfo⟩
  | cons p rest ih =>
    intro tops tops' h hnd
    rw [List.foldlM_cons] at h
    rcases Option.bind_eq_some.mp h with ⟨t1, h1, h2⟩
    have hndrest : (alistKeys rest).Nodup := by
      rw [alistKeys, List.map_cons, List.nodup_cons] at hnd
      exact hnd.2
    have hp : p = (p.1, p.2) := rfl
    by_cases hT : T = p.1
    · -- the head entry is our topic; the rest of the file cannot mention it
      have hrest_none : alistGet rest T = none := by
        apply alistGet_eq_none_of_not_contains
        rcases hc : alistContains rest T with _ | _
        · rfl
        · exact absurd ((alistContains_iff_mem_keys rest T).mp hc)
            (by
              rw [alistKeys, List.map_cons, List.nodup_cons] at hnd
              rw [hT]
              exact hnd.1)
      have hstep := @topicStep_self tops p.1 p.2 t1 (hp ▸ h1)
      have hpreserve := (ih t1 tops' h2 hndrest).1 hrest_none
      constructor
      · intro hnone
        rw [alistGet_cons_self (hT.symm)] at hnone
        cases hnone
      · intro info hinfo
        rw [alistGet_cons_self (hT.symm)] at hinfo
        rcases Option.some.inj hinfo with rfl
        rcases hstep.2 with ⟨fin, hfin, hrest⟩
        refine ⟨fin, ?_, ?_⟩
        · rw [hpreserve, hT, hfin]
        · rw [hT]
          exact hrest
    · -- the head entry is another topic: it leaves `T`'s entry alone
      have hstep := @topicStep_self tops p.1 p.2 t1 (hp ▸ h1)
      have ht1 : alistGet t1 T = alistGet tops T := hstep.1 T hT
      have hmi : alistGet (p :: rest) T = alistGet rest T :=
        alistGet_cons_ne (fun hh => hT hh.symm)
      rcases ih t1 tops' h2 hndrest with ⟨ih1, ih2⟩
      constructor
      · intro hnone
        rw [hmi] at hnone
        rw [ih1 hnone, ht1]
      · intro info hinfo
        rw [hmi] at hinfo
        rcases ih2 info hinfo with ⟨fin, hfin, hname, hcount, hml, hmu, hs, he⟩
        rw [ht1] at hcount hml hmu
        exact ⟨fin, hfin, hname, hcount, hml, hmu, hs, he⟩

/-- Retrieving a key of a dictionary yields a pair of the dictionary. -/
theorem alistGet_mem {α : Type} {l : List (String × α)} {k : String} {v : α}
    (h : alistGet l k = some v) : (k, v) ∈ l := by
  rw [alistGet] at h
  rcases Option.map_eq_some'.mp h with ⟨p, hp, hv⟩
  have hk : p.1 = k := by simpa using List.find?_some hp
  have : p = (k, v) := by
    rcases p with ⟨a, b⟩
    simp only at hk hv
    rw [hk, hv]
  rw [← this]
  exact List.mem_of_find?_eq_some hp

/-- Shape of every entry the topic-merge loop ever stores: its `name` field
repeats its dictionary key, and once the time range is set, `duration` is
exactly `end_time - start_time`. -/
def TopicShapeOK (q : String × TopicEntry) : Prop :=
  q.2.name = q.1
    ∧ ∀ s t : ℚ, q.2.start_time = some s → q.2.end_time = some t →
        q.2.duration = some (t - s)

theorem topicStep_mem_shape {tops : List (String × TopicEntry)} {p : String × ChanInfo}
    {tops' : List (String × TopicEntry)} (h : topicStep tops p = some tops') :
    ∀ q ∈ tops', q ∈ tops ∨ TopicShapeOK q := by
  intro q hq
  rw [topicStep] at h
  split at h
  · cases h
  · split at h
    · cases h
    · split at h
      · cases h
      · split at h
        · have heq := Option.some.inj h
          rw [← heq] at hq
          by_cases hc : alistContains tops p.1 = true
          · rw [if_pos hc] at hq
            rcases alistSet_mem hq with hmem | hfin
            · exact Or.inl hmem
            · rw [hfin]
              exact Or.inr ⟨rfl, fun s t hs ht => by
                simp only at hs ht ⊢
                rcases Option.some.inj hs with rfl
                rcases Option.some.inj ht with rfl
                rfl⟩
          · rw [if_neg hc] at hq
            rcases alistSet_mem hq with hmem | hfin
            · rcases alistSet_mem hmem with hmem' | hinit
              · exact Or.inl hmem'
              · refine Or.inr ⟨by rw [hinit], fun s t hs ht => ?_⟩
                rw [hinit] at hs
                cases hs
            · rw [hfin]
              exact Or.inr ⟨rfl, fun s t hs ht => by
                simp only at hs ht ⊢
                rcases Option.some.inj hs with rfl
                rcases Option.some.inj ht with rfl
                rfl⟩
        · cases h

/-- Generic preservation of a membership property through the topic-merge
loop of one file. -/
theorem topicFold_pres (P : String × TopicEntry → Prop)
    (hstep : ∀ {tops p tops'}, topicStep tops p = some tops' →
      ∀ q ∈ tops', q ∈ tops ∨ P q) :
    ∀ (mi : List (String × ChanInfo)) (tops tops' : List (String × TopicEntry)),
      mi.foldlM topicStep tops = some tops' →
      (∀ q ∈ tops, P q) → ∀ q ∈ tops', P q := by
  intro mi
  induction mi with
  | nil =>
    intro tops tops' h hP
    cases h
    exact hP
  | cons c cs ih =>
    intro tops tops' h hP
    rw [List.foldlM_cons] at h
    rcases Option.bind_eq_some.mp h with ⟨t1, h1, h2⟩
    refine ih t1 tops' h2 ?_
    intro q hq
    rcases hstep h1 q hq with hmem | hPq
    · exact hP q hmem
    · exact hPq

/-- Generic preservation of a membership property of the topics dictionary
through the file loop. -/
theorem recFold_pres (P : String × TopicEntry → Prop)
    (hstep : ∀ {tops p tops'}, topicStep tops p = some tops' →
      ∀ q ∈ tops', q ∈ tops ∨ P q) :
    ∀ (files : List FileData) (acc acc' : RecAcc),
      files.foldlM recStep acc = some acc' →
      (∀ q ∈ acc.topics, P q) → ∀ q ∈ acc'.topics, P q := by
  intro files
  induction files with
  | nil =>
    intro acc acc' h hP
    cases h
    exact hP
  | cons f fs ih =>
    intro acc acc' h hP
    rw [List.foldlM_cons] at h
    rcases Option.bind_eq_some.mp h with ⟨a1, h1, h2⟩
    exact ih a1 acc' h2
      (topicFold_pres P hstep (get_mcap_info f.msgs) acc.topics a1.topics
        (recStep_topics h1) hP)

/-- The running merged-topic summary for one topic after a prefix of the
files: absent before the topic's first appearance, afterwards an entry whose
`count` is the sum and whose time range is the running min/max over the
per-file channel statistics seen so far. -/
def TopicAggOK (T : String) (occs : List ChanInfo) (cur : Option TopicEntry) : Prop :=
  (occs = [] → cur = none)
    ∧ (occs ≠ [] → ∃ e : TopicEntry, cur = some e
        ∧ e.name = T
        ∧ e.count = (occs.map ChanInfo.num_messages).sum
        ∧ e.start_time = (occs.filterMap ChanInfo.start_time).min?
        ∧ e.end_time = (occs.filterMap ChanInfo.end_time).max?)

theorem TopicAggOK_step {T : String} {occs : List ChanInfo} {cur : Option TopicEntry}
    {info : ChanInfo} {fin : TopicEntry}
    (hagg : TopicAggOK T occs cur)
    (hwf : ∀ c ∈ occs, c.start_time.isSome = true ∧ c.end_time.isSome = true)
    (his : info.start_time.isSome = true) (hie : info.end_time.isSome = true)
    (hname : fin.name = T)
    (hcount : fin.count = (cur.elim 0 TopicEntry.count) + info.num_messages)
    (hml : mergeLower (cur.elim (none : Option ℚ) TopicEntry.start_time)
      info.start_time = some fin.start_time)
    (hmu : mergeUpper (cur.elim (none : Option ℚ) TopicEntry.end_time)
      info.end_time = some fin.end_time) :
    TopicAggOK T (occs ++ [info]) (some fin) := by
  rcases Option.isSome_iff_exists.mp his with ⟨s, hs⟩
  rcases Option.isSome_iff_exists.mp hie with ⟨t, ht⟩
  constructor
  · intro hnil
    exact absurd hnil (by simp)
  · intro _
    refine ⟨fin, rfl, hname, ?_, ?_, ?_⟩
    · -- count is the sum
      rw [List.map_append, List.sum_append, hcount]
      rcases hoc : occs with _ | ⟨o, os⟩
      · subst hoc
        have hc0 : cur = none := hagg.1 rfl
        rw [hc0]
        rfl
      · subst hoc
        rcases hagg.2 (List.cons_ne_nil o os) with ⟨e, hce, _, hec, _, _⟩
        rw [hce, Option.elim_some, hec]
        rfl
    · -- start_time is the running minimum
      rw [List.filterMap_append,
        show occs.filterMap ChanInfo.start_time ++ [info].filterMap ChanInfo.start_time
            = occs.filterMap ChanInfo.start_time ++ [s] from by
          rw [List.filterMap_cons, show ChanInfo.start_time info = some s from hs]
          rfl]
      rcases hoc : occs with _ | ⟨o, os⟩
      · subst hoc
        have hc0 : cur = none := hagg.1 rfl
        rw [hc0, Option.elim_none, mergeLower, hs] at hml
        rw [List.filterMap_nil, List.nil_append, List.min?_cons']
        exact (Option.some.inj hml).symm
      · subst hoc
        rcases hagg.2 (List.cons_ne_nil o os) with ⟨e, hce, _, _, hes, _⟩
        rcases hm : ((o :: os).filterMap ChanInfo.start_time).min? with _ | m
        · -- impossible: the first occurrence contributes a start time
          rcases Option.isSome_iff_exists.mp
            ((hwf o (List.mem_cons_self o os)).1) with ⟨s0, hs0⟩
          have : s0 ∈ (o :: os).filterMap ChanInfo.start_time :=
            List.mem_filterMap.mpr ⟨o, List.mem_cons_self o os, hs0⟩
          rw [List.min?_eq_none_iff.mp hm] at this
          cases this
        · rw [min?_append_singleton, hm]
          rw [hce, Option.elim_some] at hml
          rw [hes, hm] at hml
          simp only [mergeLower, hs, pyMin_eq_min] at hml
          exact (Option.some.inj hml).symm
    · -- end_time is the running maximum
      rw [List.filterMap_append,
        show occs.filterMap ChanInfo.end_time ++ [info].filterMap ChanInfo.end_time
            = occs.filterMap ChanInfo.end_time ++ [t] from by
          rw [List.filterMap_cons, show ChanInfo.end_time info = some t from ht]
          rfl]
      rcases hoc : occs with _ | ⟨o, os⟩
      · subst hoc
        have hc0 : cur = none := hagg.1 rfl
        rw [hc0, Option.elim_none, mergeUpper, ht] at hmu
        rw [List.filterMap_nil, List.nil_append, List.max?_cons']
        exact (Option.some.inj hmu).symm
      · subst hoc
        rcases hagg.2 (List.cons_ne_nil o os) with ⟨e, hce, _, _, _, hee⟩
        rcases hm : ((o :: os).filterMap ChanInfo.end_time).max? with _ | m
        · rcases Option.isSome_iff_exists.mp
            ((hwf o (List.mem_cons_self o os)).2) with ⟨t0, ht0⟩
          have : t0 ∈ (o :: os).filterMap ChanInfo.end_time :=
            List.mem_filterMap.mpr ⟨o, List.mem_cons_self o os, ht0⟩
          rw [List.max?_eq_none_iff.mp hm] at this
          cases this
        · rw [max?_append_singleton, hm]
          rw [hce, Option.elim_some] at hmu
          rw [hee, hm] at hmu
          simp only [mergeUpper, ht, pyMax_eq_max] at hmu
          exact (Option.some.inj hmu).symm

/-- The file loop accumulates, for every topic, the per-topic summary over
the channel statistics of the files in which the topic appears. -/
theorem recFold_topic_agg {T : String} :
    ∀ (files : List FileData) (acc acc' : RecAcc),
      files.foldlM recStep acc = some acc' →
      ∀ occs : List ChanInfo, TopicAggOK T occs (alistGet acc.topics T) →
        (∀ c ∈ occs, c.start_time.isSome = true ∧ c.end_time.isSome = true) →
        TopicAggOK T
          (occs ++ files.filterMap (fun f => alistGet (get_mcap_info f.msgs) T))
          (alistGet acc'.topics T) := by
  intro files
  induction files with
  | nil =>
    intro acc acc' h occs hagg _
    cases h
    rw [List.filterMap_nil, List.append_nil]
    exact hagg
  | cons f fs ih =>
    intro acc acc' h occs hagg hwf
    rw [List.foldlM_cons] at h
    rcases Option.bind_eq_some.mp h with ⟨a1, h1, h2⟩
    have htf := recStep_topics h1
    have hnd := get_mcap_info_keys_nodup f.msgs
    rcases hget : alistGet (get_mcap_info f.msgs) T with _ | info
    · -- the file does not carry this topic
      have hsame := (topicFold_get (get_mcap_info f.msgs) acc.topics a1.topics htf hnd).1 hget
      rw [List.filterMap_cons, hget]
      refine ih a1 acc' h2 occs ?_ hwf
      rw [hsame]
      exact hagg
    · -- the file carries the topic: one accumulation step
      rcases (topicFold_get (get_mcap_info f.msgs) acc.topics a1.topics htf hnd).2 info hget
        with ⟨fin, hfin, hname, hcount, hml, hmu, _, _⟩
      have hinfo_wf := get_mcap_info_wf hget
      have hstep : TopicAggOK T (occs ++ [info]) (some fin) :=
        TopicAggOK_step hagg hwf hinfo_wf.1 hinfo_wf.2 hname hcount hml hmu
      have hwf' : ∀ c ∈ occs ++ [info],
          c.start_time.isSome = true ∧ c.end_time.isSome = true := by
        intro c hc
        rcases List.mem_append.mp hc with hc | hc
        · exact hwf c hc
        · rcases List.mem_singleton.mp hc with rfl
          exact hinfo_wf
      have := ih a1 acc' h2 (occs ++ [info]) (by rw [hfin]; exact hstep) hwf'
      rw [List.append_assoc, List.singleton_append] at this
      rw [List.filterMap_cons, hget]
      exact this

/-- With a name-consistent topics dictionary, looking a topic up by `name`
in the entry list equals the dictionary lookup by key. -/
theorem find?_name_eq_alistGet {T : String} :
    ∀ (tops : List (String × TopicEntry)),
      (∀ q ∈ tops, q.2.name = q.1) →
      (tops.map (fun p => p.2)).find? (fun t => t.name == T) = alistGet tops T := by
  intro tops
  induction tops with
  | nil => intro _; rfl
  | cons p rest ih =>
    intro hname
    have hp : p.2.name = p.1 := hname p (List.mem_cons_self p rest)
    rw [List.map_cons]
    by_cases hk : p.1 = T
    · rw [List.find?_cons_of_pos _ (by rw [hp, hk]; exact beq_self_eq_true T),
        alistGet_cons_self hk]
    · rw [List.find?_cons_of_neg _ (by rw [hp]; simpa using hk),
        alistGet_cons_ne hk]
      exact ih (fun q hq => hname q (List.mem_cons_of_mem p hq))

/-- Every topics-dictionary entry of the finished fold is shape-consistent. -/
theorem recFold_shape {files : List FileData} {acc acc' : RecAcc}
    (h : files.foldlM recStep acc = some acc')
    (hP : ∀ q ∈ acc.topics, TopicShapeOK q) :
    ∀ q ∈ acc'.topics, TopicShapeOK q :=
  recFold_pres TopicShapeOK (fun hstep => topicStep_mem_shape hstep) files acc acc' h hP

set_option maxHeartbeats 1000000 in
/-- C4: in `get_rec_info`'s per-topic merge across the files of a recording,
the merged entry for any topic has `count` equal to the sum of the per-file
message counts, `start_time` the minimum and `end_time` the maximum of the
per-file time ranges over the files in which the topic appears,
`duration = end_time - start_time`, and `frequency = count / duration`
whenever the duration is positive. -/
theorem C4_topic_merge_across_files {recording_path : String} {files : List FileData}
    {now : ℚ} {r : RecInfo} {T : String} {e : TopicEntry}
    (hbuild : buildRecInfo recording_path files now = some r)
    (hfind : r.topics.find? (fun t => t.name == T) = some e) :
    e.count = ((files.filterMap (fun f => alistGet (get_mcap_info f.msgs) T)).map
        ChanInfo.num_messages).sum
      ∧ e.start_time = ((files.filterMap
          (fun f => alistGet (get_mcap_info f.msgs) T)).filterMap
            ChanInfo.start_time).min?
      ∧ e.end_time = ((files.filterMap
          (fun f => alistGet (get_mcap_info f.msgs) T)).filterMap
            ChanInfo.end_time).max?
      ∧ (∀ s t : ℚ, e.start_time = some s → e.end_time = some t →
          e.duration = some (t - s))
      ∧ (∀ d : ℚ, e.duration = some d → 0 < d →
          e.frequency = some ((e.count : ℚ) / d)) := by
  rw [buildRecInfo] at hbuild
  rcases Option.map_eq_some'.mp hbuild with ⟨accF, hfold, hr⟩
  have hshape : ∀ q ∈ accF.topics, TopicShapeOK q :=
    recFold_shape hfold (by intro q hq; cases hq)
  have htopics : r.topics = accF.topics.map (fun p => p.2) := by
    rw [← hr, finalizeAcc_topics]
  have hget : alistGet accF.topics T = some e := by
    rw [← find?_name_eq_alistGet accF.topics (fun q hq => (hshape q hq).1), ← htopics]
    exact hfind
  have hagg := recFold_topic_agg (T := T) files (initAcc recording_path now) accF hfold []
    (⟨fun _ => rfl, fun hne => absurd rfl hne⟩)
    (by intro c hc; cases hc)
  rw [List.nil_append, hget] at hagg
  have hdur : ∀ s t : ℚ, e.start_time = some s → e.end_time = some t →
      e.duration = some (t - s) := by
    have hmem : (T, e) ∈ accF.topics := alistGet_mem hget
    exact (hshape (T, e) hmem).2
  have hfreq : ∀ d : ℚ, e.duration = some d → 0 < d →
      e.frequency = some ((e.count : ℚ) / d) := by
    intro d hd hpos
    have he_mem : e ∈ r.topics := List.mem_of_find?_eq_some hfind
    have := buildRecInfo_topics_invariant
      (by rw [buildRecInfo, hfold, Option.map_some', hr]) e he_mem d hd
    rw [this, if_pos hpos]
  rcases hocc : files.filterMap (fun f => alistGet (get_mcap_info f.msgs) T)
    with _ | ⟨o, os⟩
  · rw [hocc] at hagg
    have := hagg.1 rfl
    cases this
  · rw [hocc] at hagg
    rcases hagg.2 (List.cons_ne_nil o os) with ⟨e', hee, _, hc, hs, he⟩
    rcases Option.some.inj hee with rfl
    rw [hocc]
    exact ⟨hc, hs, he, hdur, hfreq⟩

/-- A file with `/gps` active `[0s,10s)`: 10 messages at 0..9 s. -/
def gpsF1 : FileData :=
  ⟨"a.mcap",
   [⟨"/gps", "T", some 0⟩, ⟨"/gps", "T", some 1000000000⟩,
    ⟨"/gps", "T", some 2000000000⟩, ⟨"/gps", "T", some 3000000000⟩,
    ⟨"/gps", "T", some 4000000000⟩, ⟨"/gps", "T", some 5000000000⟩,
    ⟨"/gps", "T", some 6000000000⟩, ⟨"/gps", "T", some 7000000000⟩,
    ⟨"/gps", "T", some 8000000000⟩, ⟨"/gps", "T", some 9000000000⟩],
   "m1", 100⟩

/-- A second file with `/gps` active `(10s,20s]`: 10 messages at 11..20 s. -/
def gpsF2 : FileData :=
  ⟨"b.mcap",
   [⟨"/gps", "T", some 11000000000⟩, ⟨"/gps", "T", some 12000000000⟩,
    ⟨"/gps", "T", some 13000000000⟩, ⟨"/gps", "T", some 14000000000⟩,
    ⟨"/gps", "T", some 15000000000⟩, ⟨"/gps", "T", some 16000000000⟩,
    ⟨"/gps", "T", some 17000000000⟩, ⟨"/gps", "T", some 18000000000⟩,
    ⟨"/gps", "T", some 19000000000⟩, ⟨"/gps", "T", some 20000000000⟩],
   "m2", 200⟩

/-- The recording record aggregated from `gpsF1` and `gpsF2` at clock 0. -/
def rGps : RecInfo :=
  ⟨"r", some 0, some 20, some 20, "st/r", 300, 0,
   [⟨"a.mcap", 0, 9, 9, "m1", 100⟩, ⟨"b.mcap", 11, 20, 9, "m2", 200⟩],
   [⟨"/gps", some "T", some 0, some 20, some 20, 20, some 1⟩]⟩

/-- The merged `/gps` topic entry of `rGps`: `count = 20`, `start = 0`,
`end = 20`, `duration = 20`, `frequency = 1`. -/
def eGps : TopicEntry :=
  ⟨"/gps", some "T", some 0, some 20, some 20, 20, some 1⟩

set_option maxHeartbeats 4000000 in
/-- C4 (witness): the spec's `/gps` example, `10 + 10` messages over a 20 s
range merged across two files. -/
theorem C4_topic_merge_across_files_witness :
    eGps.count = (([gpsF1, gpsF2].filterMap
        (fun f => alistGet (get_mcap_info f.msgs) "/gps")).map
          ChanInfo.num_messages).sum
      ∧ eGps.start_time = (([gpsF1, gpsF2].filterMap
          (fun f => alistGet (get_mcap_info f.msgs) "/gps")).filterMap
            ChanInfo.start_time).min?
      ∧ eGps.end_time = (([gpsF1, gpsF2].filterMap
          (fun f => alistGet (get_mcap_info f.msgs) "/gps")).filterMap
            ChanInfo.end_time).max?
      ∧ (∀ s t : ℚ, eGps.start_time = some s → eGps.end_time = some t →
          eGps.duration = some (t - s))
      ∧ (∀ d : ℚ, eGps.duration = some d → 0 < d →
          eGps.frequency = some ((eGps.count : ℚ) / d)) :=
  @C4_topic_merge_across_files "st/r" [gpsF1, gpsF2] 0 rGps "/gps" eGps
    (by
      simp +decide [buildRecInfo, recStep, topicStep, get_mcap_info, chanStep,
        chanFinalize, msgTimestamp, alistSet, alistGet, alistGetD, alistContains,
        basename, initAcc, finalizeAcc, mergeLower, mergeUpper, List.mapM,
        List.mapM.loop, List.min?, List.max?, emptyChan, gpsF1, gpsF2, rGps]
      norm_num [eq_false (by decide : ¬ ("a.mcap" = "b.mcap")),
        eq_false (by decide : ¬ ("b.mcap" = "a.mcap"))]
      simp [finalizeAcc])
    (by rfl)

end Bagman
